import Mathlib

/-!
Verification of the `fast-skiplist` package (files `skiplist.go`, `type.go`).

The Go code is a pointer-based skip list protected by a single mutex; every
exported operation (`Set`, `Get`, `Remove`) runs under the lock, so its
sequential behaviour is what we model.  The embedding below is a direct
translation of the source:

* the heap of allocated elements is an explicit list addressed by index
  (`EId`); pointer slots are `Option EId` (`none` = Go `nil`);
* the sentinel (`SkipList.elementNode`) keeps its forward array in the
  state (`headNext`); an `elementNode` reference is `NodeRef`;
* every Go slice index is translated as a checked access: a result of
  `none` at the outer `Option` layer of an operation models a Go runtime
  panic (index out of range / nil dereference);
* `float64` values only ever flow into order comparisons, so probabilities
  are modelled as `ℚ`; the random source `rand.Source` (seeded from the
  clock) and the package constant `DefaultProbability = 1/e` are inputs of
  the model (`randSource`, `defaultProbability`), since their exact values
  never influence any claim under check;
* `interface{}` values are opaque payloads, modelled as `Nat`.
-/

namespace FastSkipList

/-- Keys are Go `[]byte` slices: finite sequences of bytes. -/
abbrev Key := List Nat

/-- Values are opaque payloads (`interface{}` in Go). -/
abbrev Value := Nat

/-- An element identifier: index into the allocation heap. -/
abbrev EId := Nat

/-- A reference to an `elementNode`: either the list's sentinel node or the
embedded node of element `id`. -/
inductive NodeRef where
  | head
  | elem (id : EId)
deriving DecidableEq, Repr

/-- One stored element (`Element` in `type.go`): its forward-pointer array
`next`, its `key` and its `value`.  The `list` back pointer of the embedded
`elementNode` is only used for locking and is not modelled. -/
structure Element where
  next : List (Option EId)
  key : Key
  value : Value
deriving DecidableEq, Repr

/-- The `SkipList` struct of `type.go`.  `headNext` is the sentinel's
forward array (`elementNode.next`), `heap` the set of allocated elements,
`length` the exported `Length` field (a Go `int`), `randSource` together
with `randUsed` the stream of uniform draws produced by `rand.Source`,
and `prevNodesCache` the reusable predecessor scratch buffer. -/
structure SkipList where
  headNext : List (Option EId)
  heap : List Element
  maxLevel : Nat
  length : Int
  randSource : Nat → ℚ
  randUsed : Nat
  probability : ℚ
  probTable : List ℚ
  prevNodesCache : List (Option NodeRef)

/-- `DefaultMaxLevel` from `skiplist.go`. -/
def DefaultMaxLevel : Nat := 18

/-- `bytes.Compare`: byte-wise unsigned lexicographic comparison, a shorter
strict prefix compares less. -/
def bytesCompare : Key → Key → Ordering
  | [], [] => .eq
  | [], _ :: _ => .lt
  | _ :: _, [] => .gt
  | a :: as, b :: bs =>
    if a < b then .lt else if b < a then .gt else bytesCompare as bs

/-- The forward-pointer array of the node `r` refers to; `none` models a
dangling element pointer (never happens in reachable states). -/
def nodeSlots (s : SkipList) : NodeRef → Option (List (Option EId))
  | .head => some s.headNext
  | .elem id => (s.heap[id]?).map Element.next

/-- `elementNode.NextAt(i)`: load forward pointer `i` of node `r`.  The
outer `Option` is a Go panic (index out of range / nil dereference). -/
def nodeNextAt (s : SkipList) (r : NodeRef) (i : Nat) : Option (Option EId) :=
  (nodeSlots s r).bind fun ns => ns[i]?

/-- Store `v` into forward slot `i` of node `r`
(`atomic.StorePointer(&n.next[i], v)`); `none` models the Go panic when the
slot does not exist. -/
def writeNextAt (s : SkipList) (r : NodeRef) (i : Nat) (v : Option EId) :
    Option SkipList :=
  match r with
  | .head =>
    if i < s.headNext.length then some { s with headNext := s.headNext.set i v }
    else none
  | .elem id =>
    match s.heap[id]? with
    | none => none
    | some e =>
      if i < e.next.length then
        some { s with heap := s.heap.set id { e with next := e.next.set i v } }
      else none

/-- The key of element `id` (spec-level accessor; `[]` when dangling). -/
def keyOf (s : SkipList) (id : EId) : Key := ((s.heap[id]?).map Element.key).getD []

/-- The value of element `id`, when allocated. -/
def valueOf (s : SkipList) (id : EId) : Option Value := (s.heap[id]?).map Element.value

/-- The height (length of the forward array) of element `id`. -/
def heightOf (s : SkipList) (id : EId) : Nat :=
  ((s.heap[id]?).map (fun e => e.next.length)).getD 0

/-- `list.Front()`: the sentinel's level-0 successor. -/
def Front (s : SkipList) : Option (Option EId) := nodeNextAt s .head 0

/-- `Element.Next()`: element `id`'s level-0 successor. -/
def elemNext (s : SkipList) (id : EId) : Option (Option EId) := nodeNextAt s (.elem id) 0

/-- The inner `for next != nil && bytes.Compare(key, next.key) > 0` walk that
`Get` and `getPrevElementNodes` both run at one level `i`: advance while the
successor's key is strictly below `key`; return the final `(prev, next)`
pair.  The walk is fuel-bounded; callers pass `s.heap.length + 1`, enough
for every duplicate-free chain, so running out of fuel (`none`) can only
happen on a cyclic heap, which never occurs in reachable states. -/
def walkLevel (s : SkipList) (key : Key) (i : Nat) : Nat → NodeRef → Option (NodeRef × Option EId)
  | 0, _ => none
  | fuel + 1, prev =>
    match nodeNextAt s prev i with
    | none => none
    | some none => some (prev, none)
    | some (some id) =>
      match s.heap[id]? with
      | none => none
      | some e =>
        if bytesCompare key e.key = .gt then walkLevel s key i fuel (.elem id)
        else some (prev, some id)

/-- The level-descending loop of `Get` (`for i := list.maxLevel - 1; i >= 0; i--`):
process levels `c-1, …, 0` starting from `prev`, returning the final
`(prev, next)`.  When called with `c = 0` (never happens: `maxLevel ≥ 1`)
`next` keeps its initial `nil`. -/
def searchLevels (s : SkipList) (key : Key) : Nat → NodeRef → Option (NodeRef × Option EId)
  | 0, prev => some (prev, none)
  | c + 1, prev => do
    let pn ← walkLevel s key c (s.heap.length + 1) prev
    match c with
    | 0 => pure pn
    | c' + 1 => searchLevels s key (c' + 1) pn.1

/-- `l[i] = a` on a Go slice: panics when `i` is out of range. -/
def setOrPanic {α : Type} (l : List α) (i : Nat) (a : α) : Option (List α) :=
  if i < l.length then some (l.set i a) else none

/-- The loop of `getPrevElementNodes`: like `searchLevels` but additionally
recording `prevs[i] = prev` after the level-`i` walk. -/
def gpenLevels (s : SkipList) (key : Key) :
    Nat → NodeRef → List (Option NodeRef) → Option (NodeRef × Option EId × List (Option NodeRef))
  | 0, prev, prevs => some (prev, none, prevs)
  | c + 1, prev, prevs => do
    let pn ← walkLevel s key c (s.heap.length + 1) prev
    let prevs' ← setOrPanic prevs c (some pn.1)
    match c with
    | 0 => pure (pn.1, pn.2, prevs')
    | c' + 1 => gpenLevels s key (c' + 1) pn.1 prevs'

/-- `getPrevElementNodes`: fill the shared scratch buffer
`prevNodesCache` with the per-level predecessors of `key` and return it
(the Go function returns the buffer itself, so the state's cache and the
returned slice coincide). -/
def getPrevElementNodes (s : SkipList) (key : Key) :
    Option (SkipList × List (Option NodeRef)) := do
  let res ← gpenLevels s key s.maxLevel .head s.prevNodesCache
  pure ({ s with prevNodesCache := res.2.2 }, res.2.2)

/-- `probabilityTable(probability, MaxLevel)`: entry `i` (0-based) is
`probability ^ i`, for `i = 0 … MaxLevel-1`. -/
def probabilityTable (probability : ℚ) (maxLevel : Nat) : List ℚ :=
  (List.range maxLevel).map fun i => probability ^ i

/-- The `for level < list.maxLevel && r < list.probTable[level]` loop of
`randLevel`; `rem` is `maxLevel - level`, so the short-circuit bound check
is the pattern match on `rem` and the table access panics (`none`) exactly
when Go would index out of range. -/
def randLevelAux (probTable : List ℚ) (r : ℚ) : Nat → Nat → Option Nat
  | level, 0 => some level
  | level, rem + 1 =>
    match probTable[level]? with
    | none => none
    | some p => if r < p then randLevelAux probTable r (level + 1) rem else some level

/-- `randLevel`: draw `r` uniform in `[0,1)` from the source and climb the
probability table starting at level 1. -/
def randLevel (s : SkipList) : Option (Nat × SkipList) :=
  let r := s.randSource s.randUsed
  (randLevelAux s.probTable r 1 (s.maxLevel - 1)).map
    fun lvl => (lvl, { s with randUsed := s.randUsed + 1 })

/-- The splice loop of `Set` for a freshly allocated element: for
`i = 0 … lvl-1`, first `element.next[i] = prevs[i].next[i]`, then
`prevs[i].next[i] = element`. -/
def spliceLevels (newId : EId) (prevs : List (Option NodeRef)) :
    Nat → SkipList → Option SkipList
  | 0, s => some s
  | i + 1, s => do
    let s' ← spliceLevels newId prevs i s
    let pOpt ← prevs[i]?
    let pr ← pOpt
    let old ← nodeNextAt s' pr i
    let s'' ← writeNextAt s' (.elem newId) i old
    writeNextAt s'' pr i (some newId)

/-- The insertion branch of `Set`: draw a height, allocate the element with
a forward array of that height, splice it in at every level, and bump
`Length`. -/
def insertNew (s : SkipList) (prevs : List (Option NodeRef)) (key : Key) (value : Value) :
    Option (SkipList × EId) := do
  let rl ← randLevel s
  let s2 := rl.2
  let newId := s2.heap.length
  let s3 := { s2 with
    heap := s2.heap ++ [{ next := List.replicate rl.1 none, key := key, value := value }] }
  let s4 ← spliceLevels newId prevs rl.1 s3
  pure ({ s4 with length := s4.length + 1 }, newId)

/-- `Set(key, value)`: insert-or-update, returning the live element. -/
def Set (s : SkipList) (key : Key) (value : Value) : Option (SkipList × EId) := do
  let gp ← getPrevElementNodes s key
  let s1 := gp.1
  let prevs := gp.2
  let p0 ← prevs[0]?
  let r0 ← p0
  let cand ← nodeNextAt s1 r0 0
  match cand with
  | some id =>
    match s1.heap[id]? with
    | none => none
    | some e =>
      if bytesCompare e.key key ≠ .gt then
        pure ({ s1 with heap := s1.heap.set id { e with value := value } }, id)
      else insertNew s1 prevs key value
  | none => insertNew s1 prevs key value

/-- `Get(key)`: point lookup with its own (cache-free) descending search. -/
def Get (s : SkipList) (key : Key) : Option (SkipList × Option EId) := do
  let pn ← searchLevels s key s.maxLevel .head
  match pn.2 with
  | some id =>
    match s.heap[id]? with
    | none => none
    | some e => if bytesCompare e.key key ≠ .gt then pure (s, some id) else pure (s, none)
  | none => pure (s, none)

/-- The unlink loop of `Remove`: for every level `k` the element
participates in, `prevs[k].next[k] = element.next[k]`. -/
def unspliceLevels (elId : EId) (prevs : List (Option NodeRef)) :
    Nat → SkipList → Option SkipList
  | 0, s => some s
  | k + 1, s => do
    let s' ← unspliceLevels elId prevs k s
    let pOpt ← prevs[k]?
    let pr ← pOpt
    let v ← nodeNextAt s' (.elem elId) k
    writeNextAt s' pr k v

/-- `Remove(key)`: delete by key, returning the removed element or `nil`. -/
def Remove (s : SkipList) (key : Key) : Option (SkipList × Option EId) := do
  let gp ← getPrevElementNodes s key
  let s1 := gp.1
  let prevs := gp.2
  let p0 ← prevs[0]?
  let r0 ← p0
  let cand ← nodeNextAt s1 r0 0
  match cand with
  | some id =>
    match s1.heap[id]? with
    | none => none
    | some e =>
      if bytesCompare e.key key ≠ .gt then do
        let s2 ← unspliceLevels id prevs e.next.length s1
        pure ({ s2 with length := s2.length - 1 }, some id)
      else pure (s1, none)
  | none => pure (s1, none)

/-- `SetProbability(p)`: store the new `P` value and recompute the table
(over the list's own `maxLevel`). -/
def SetProbability (s : SkipList) (p : ℚ) : SkipList :=
  { s with probability := p, probTable := probabilityTable p s.maxLevel }

/-- `NewWithMaxLevel(maxLevel)`: `none` models the Go construction panic
for a max level outside `[1, 64]`.  `defaultProbability` stands for the
package constant `DefaultProbability = 1/e` and `randSource` for the
clock-seeded random source; both are inputs of the model. -/
def NewWithMaxLevel (defaultProbability : ℚ) (randSource : Nat → ℚ) (maxLevel : Nat) :
    Option SkipList :=
  if maxLevel < 1 ∨ maxLevel > 64 then none
  else some {
    headNext := List.replicate DefaultMaxLevel none
    heap := []
    maxLevel := maxLevel
    length := 0
    randSource := randSource
    randUsed := 0
    probability := defaultProbability
    probTable := probabilityTable defaultProbability DefaultMaxLevel
    prevNodesCache := List.replicate DefaultMaxLevel none }

/-- `New()`: a list with the default max level. -/
def New (defaultProbability : ℚ) (randSource : Nat → ℚ) : Option SkipList :=
  NewWithMaxLevel defaultProbability randSource DefaultMaxLevel

/-- The list states reachable by constructing a list and running any
sequence of (completing) operations on it. -/
inductive Reachable : SkipList → Prop where
  | base (p : ℚ) (rs : Nat → ℚ) (n : Nat) (s : SkipList) :
      NewWithMaxLevel p rs n = some s → Reachable s
  | set {s s' : SkipList} {k : Key} {v : Value} {id : EId} :
      Reachable s → Set s k v = some (s', id) → Reachable s'
  | remove {s s' : SkipList} {k : Key} {r : Option EId} :
      Reachable s → Remove s k = some (s', r) → Reachable s'
  | setProb {s : SkipList} (p : ℚ) :
      Reachable s → Reachable (SetProbability s p)

/-! ## Specification-level definitions -/

/-- The Bool test the level walks run: `bytes.Compare(key, next.key) > 0`,
i.e. the walk passes over element `id`. -/
def passb (s : SkipList) (k : Key) (id : EId) : Bool :=
  decide (bytesCompare k (keyOf s id) = .gt)

/-- Element heights above level `i` (the elements participating in the
level-`i` chain). -/
def heightb (s : SkipList) (i : Nat) (id : EId) : Bool :=
  decide (i < heightOf s id)

/-- The node at which a level walk that started at `prev` and passed over
exactly the elements `lo` ends. -/
def endRef (prev : NodeRef) (lo : List EId) : NodeRef :=
  (lo.getLast?).elim prev NodeRef.elem

/-- The level-`i` forward chain induced by the level-0 order `L`: the
elements of `L` whose height exceeds `i`. -/
def chainAt (s : SkipList) (L : List EId) (i : Nat) : List EId :=
  L.filter (heightb s i)

/-- The part of the level-`i` chain a search for `k` passes over. -/
def loAt (s : SkipList) (k : Key) (L : List EId) (i : Nat) : List EId :=
  (chainAt s L i).takeWhile (passb s k)

/-- The part of the level-`i` chain at or beyond the search key `k`. -/
def hiAt (s : SkipList) (k : Key) (L : List EId) (i : Nat) : List EId :=
  (chainAt s L i).dropWhile (passb s k)

/-- The rightmost node of the level-`i` chain whose key is strictly below
`k` (the sentinel when there is none): what slot `i` of the predecessor
buffer holds after `getPrevElementNodes(k)`. -/
def predAt (s : SkipList) (k : Key) (L : List EId) (i : Nat) : NodeRef :=
  endRef .head (loAt s k L i)

/-- `IsChainFrom s i r ids`: starting at node `r` and repeatedly following
forward pointer `i` visits exactly the elements `ids` and then `nil`.  This
is the observable behaviour of iteration (`Front` / `Element.Next` at
`i = 0`). -/
inductive IsChainFrom (s : SkipList) (i : Nat) : NodeRef → List EId → Prop where
  | nil {r : NodeRef} : nodeNextAt s r i = some none → IsChainFrom s i r []
  | cons {r : NodeRef} {id : EId} {ids : List EId} :
      nodeNextAt s r i = some (some id) → IsChainFrom s i (.elem id) ids →
      IsChainFrom s i r (id :: ids)

/-- The structural invariant tying a state to its level-0 element order
`L`: all chain members are allocated, the level-0 order is strictly sorted
by key, heights lie in `[1, maxLevel]`, the chain at every level is the
height filter of `L`, and the `Length` field counts `L`. -/
structure Chains (s : SkipList) (L : List EId) : Prop where
  valid : ∀ id ∈ L, id < s.heap.length
  sorted : List.Pairwise (fun a b => bytesCompare (keyOf s a) (keyOf s b) = .lt) L
  height_pos : ∀ id ∈ L, 1 ≤ heightOf s id
  height_le : ∀ id ∈ L, heightOf s id ≤ s.maxLevel
  chains : ∀ i < DefaultMaxLevel, IsChainFrom s i .head (chainAt s L i)
  len : s.length = (L.length : Int)

/-- The full invariant of reachable states.  `pt_len` is conditional
because the sizing slip in `NewWithMaxLevel` leaves the 18-entry
probability table shorter than `maxLevel` for `maxLevel > 18` (such lists
panic on every operation before ever consulting the table). -/
structure WF (s : SkipList) : Prop where
  ml_pos : 1 ≤ s.maxLevel
  head_len : s.headNext.length = DefaultMaxLevel
  cache_len : s.prevNodesCache.length = DefaultMaxLevel
  pt_len : s.maxLevel ≤ DefaultMaxLevel → s.maxLevel ≤ s.probTable.length
  ex_chains : ∃ L, Chains s L

/-- Fields of the state that no forward-pointer store changes: everything
except the contents of the forward arrays. -/
structure SameShape (s' s : SkipList) : Prop where
  heap_len : s'.heap.length = s.heap.length
  head_len : s'.headNext.length = s.headNext.length
  key_eq : ∀ id, keyOf s' id = keyOf s id
  value_eq : ∀ id, valueOf s' id = valueOf s id
  height_eq : ∀ id, heightOf s' id = heightOf s id
  max_eq : s'.maxLevel = s.maxLevel
  len_eq : s'.length = s.length
  rand_eq : s'.randSource = s.randSource
  used_eq : s'.randUsed = s.randUsed
  prob_eq : s'.probability = s.probability
  table_eq : s'.probTable = s.probTable
  cache_eq : s'.prevNodesCache = s.prevNodesCache

/-- Forward slot `i` of node `r` exists (so loading or storing it cannot
panic). -/
def SlotOk (s : SkipList) (r : NodeRef) (i : Nat) : Prop :=
  match r with
  | .head => i < s.headNext.length
  | .elem id => ∃ e, s.heap[id]? = some e ∧ i < e.next.length

/-- A fixed sample random stream for the concrete witnesses. -/
def rhalf : Nat → ℚ := fun _ => 1/2

/-- A throwaway state used only as the default of `Option.getD`. -/
def junkState : SkipList :=
  ⟨[], [], 1, 0, rhalf, 0, 0, [], []⟩

/-- The concrete empty list `NewWithMaxLevel(18)` (the default max level). -/
def sample18 : SkipList := (NewWithMaxLevel (1/2) rhalf 18).getD junkState

/-- The concrete empty list `NewWithMaxLevel(19)`: constructed without
complaint, but every operation on it panics. -/
def sample19 : SkipList := (NewWithMaxLevel (1/2) rhalf 19).getD junkState

/-- The concrete empty list `NewWithMaxLevel(1)`: with a single level the
level draw never consults the probability table, so runs on this list are
closed computations. -/
def sample1 : SkipList := (NewWithMaxLevel (1/2) rhalf 1).getD junkState

/-- `sample1` after `Set([3], 7)`. -/
def sampleSet1 : SkipList := ((Set sample1 [3] 7).map Prod.fst).getD junkState

/-- `sampleSet1` after `Set([5], 1)`: holds keys `[3]` and `[5]`. -/
def sampleSet2 : SkipList := ((Set sampleSet1 [5] 1).map Prod.fst).getD junkState

/-! ## Order lemmas for `bytesCompare` -/

theorem bytesCompare_self (a : Key) : bytesCompare a a = .eq := by
  induction a with
  | nil => rfl
  | cons x xs ih => simp [bytesCompare, ih]

theorem bytesCompare_eq_iff {a b : Key} : bytesCompare a b = .eq ↔ a = b := by
  constructor
  · intro h
    induction a generalizing b with
    | nil => cases b with
      | nil => rfl
      | cons y ys => simp [bytesCompare] at h
    | cons x xs ih =>
      cases b with
      | nil => simp [bytesCompare] at h
      | cons y ys =>
        by_cases hxy : x < y
        · simp [bytesCompare, hxy] at h
        · by_cases hyx : y < x
          · simp [bytesCompare, hxy, hyx] at h
          · have hx : x = y := Nat.le_antisymm (Nat.le_of_not_lt hyx) (Nat.le_of_not_lt hxy)
            simp [bytesCompare, hxy, hyx] at h
            rw [hx, ih h]
  · rintro rfl; exact bytesCompare_self a

theorem bytesCompare_lt_gt {a b : Key} : bytesCompare a b = .lt ↔ bytesCompare b a = .gt := by
  induction a generalizing b with
  | nil => cases b <;> simp [bytesCompare]
  | cons x xs ih =>
    cases b with
    | nil => simp [bytesCompare]
    | cons y ys =>
      by_cases hxy : x < y
      · have hyx : ¬ y < x := Nat.lt_asymm hxy
        simp [bytesCompare, hxy, hyx]
      · by_cases hyx : y < x
        · simp [bytesCompare, hxy, hyx]
        · simp [bytesCompare, hxy, hyx, ih]

theorem bytesCompare_lt_trans {a b c : Key} (hab : bytesCompare a b = .lt)
    (hbc : bytesCompare b c = .lt) : bytesCompare a c = .lt := by
  induction a generalizing b c with
  | nil =>
    cases b with
    | nil => simpa [bytesCompare] using hbc
    | cons y ys => cases c with
      | nil => simp [bytesCompare] at hbc
      | cons z zs => simp [bytesCompare]
  | cons x xs ih =>
    cases b with
    | nil => simp [bytesCompare] at hab
    | cons y ys =>
      cases c with
      | nil => simp [bytesCompare] at hbc
      | cons z zs =>
        by_cases hxy : x < y <;> by_cases hyz : y < z
        · have hxz : x < z := Nat.lt_trans hxy hyz
          simp [bytesCompare, hxz]
        · by_cases hzy : z < y
          · simp [bytesCompare, hyz, hzy] at hbc
          · have hyz' : y = z := Nat.le_antisymm (Nat.le_of_not_lt hzy) (Nat.le_of_not_lt hyz)
            subst hyz'
            simp [bytesCompare, hxy]
        · by_cases hyx : y < x
          · simp [bytesCompare, hxy, hyx] at hab
          · have hxy' : x = y := Nat.le_antisymm (Nat.le_of_not_lt hyx) (Nat.le_of_not_lt hxy)
            subst hxy'
            simp [bytesCompare, hyz]
        · by_cases hyx : y < x
          · simp [bytesCompare, hxy, hyx] at hab
          · have hxy' : x = y := Nat.le_antisymm (Nat.le_of_not_lt hyx) (Nat.le_of_not_lt hxy)
            subst hxy'
            by_cases hzy : z < x
            · simp [bytesCompare, hyz, hzy] at hbc
            · have hyz' : x = z := Nat.le_antisymm (Nat.le_of_not_lt hzy) (Nat.le_of_not_lt hyz)
              subst hyz'
              simp [bytesCompare] at hab hbc ⊢
              exact ih hab hbc

theorem bytesCompare_cases (a b : Key) :
    bytesCompare a b = .lt ∨ bytesCompare a b = .eq ∨ bytesCompare a b = .gt := by
  cases h : bytesCompare a b
  · exact Or.inl rfl
  · exact Or.inr (Or.inl rfl)
  · exact Or.inr (Or.inr rfl)

theorem bytesCompare_antisymm {a b : Key} (h1 : bytesCompare a b ≠ .gt)
    (h2 : bytesCompare b a ≠ .gt) : a = b := by
  rcases bytesCompare_cases a b with h | h | h
  · exact absurd (bytesCompare_lt_gt.mp h) h2
  · exact bytesCompare_eq_iff.mp h
  · exact absurd h h1

theorem bytesCompare_irrefl {a b : Key} (h : bytesCompare a b = .lt) : a ≠ b := by
  rintro rfl
  rw [bytesCompare_self] at h
  cases h

/-! ## Generic list lemmas -/

/-- On a pairwise-sorted list, a predicate closed downwards along the
order holds on exactly a prefix: `takeWhile` and `filter` agree. -/
theorem takeWhile_eq_filter_of_pairwise {α : Type} {R : α → α → Prop} {p : α → Bool} :
    ∀ {L : List α}, List.Pairwise R L → (∀ a b, R a b → p b = true → p a = true) →
      L.takeWhile p = L.filter p ∧ L.dropWhile p = L.filter (fun x => !(p x)) := by
  intro L
  induction L with
  | nil => intro _ _; exact ⟨rfl, rfl⟩
  | cons a L ih =>
    intro hp hcl
    rw [List.pairwise_cons] at hp
    obtain ⟨ha, hL⟩ := hp
    obtain ⟨iht, ihd⟩ := ih hL hcl
    by_cases h : p a = true
    · simp [List.takeWhile_cons, List.dropWhile_cons, List.filter_cons, h, iht, ihd]
    · have hnone : ∀ b ∈ L, ¬ p b = true := by
        intro b hb hpb
        exact h (hcl a b (ha b hb) hpb)
      have hfil : L.filter p = [] := List.filter_eq_nil_iff.mpr hnone
      have hself : L.filter (fun x => !(p x)) = L := by
        rw [List.filter_eq_self]
        intro b hb
        simp [hnone b hb]
      simp [List.takeWhile_cons, List.dropWhile_cons, List.filter_cons, h, hfil, hself]

/-- `takeWhile`/`dropWhile` of a decomposition whose first part passes and
whose second part starts with a failure. -/
theorem takeWhile_append_of {α : Type} {p : α → Bool} :
    ∀ {B H : List α}, (∀ b ∈ B, p b = true) → (∀ x, H.head? = some x → p x = false) →
      (B ++ H).takeWhile p = B ∧ (B ++ H).dropWhile p = H := by
  intro B
  induction B with
  | nil =>
    intro H _ hH
    cases H with
    | nil => exact ⟨rfl, rfl⟩
    | cons x xs =>
      have := hH x rfl
      simp [List.takeWhile_cons, List.dropWhile_cons, this]
  | cons b B ih =>
    intro H hB hH
    have hb : p b = true := hB b (by simp)
    obtain ⟨h1, h2⟩ := ih (fun x hx => hB x (by simp [hx])) hH
    simp [List.takeWhile_cons, List.dropWhile_cons, hb, h1, h2]

/-- Splitting a list at the first element its filter keeps. -/
theorem filter_head?_split {α : Type} {p : α → Bool} :
    ∀ {L : List α} {a : α}, (L.filter p).head? = some a →
      ∃ A B, L = A ++ a :: B ∧ A.filter p = [] := by
  intro L
  induction L with
  | nil => intro a h; simp at h
  | cons x xs ih =>
    intro a h
    by_cases hx : p x = true
    · rw [List.filter_cons, if_pos hx] at h
      simp at h
      exact ⟨[], xs, by simp [h], rfl⟩
    · rw [List.filter_cons, if_neg hx] at h
      obtain ⟨A, B, hAB, hA⟩ := ih h
      refine ⟨x :: A, B, by simp [hAB], ?_⟩
      rw [List.filter_cons, if_neg hx, hA]

/-- Splitting a list at the last element its filter keeps. -/
theorem filter_getLast?_split {α : Type} {p : α → Bool} {L : List α} {a : α}
    (h : (L.filter p).getLast? = some a) :
    ∃ A B, L = A ++ a :: B ∧ B.filter p = [] := by
  have h' : (L.reverse.filter p).head? = some a := by
    rw [List.filter_reverse, List.head?_reverse]; exact h
  obtain ⟨A, B, hAB, hA⟩ := filter_head?_split h'
  refine ⟨B.reverse, A.reverse, ?_, ?_⟩
  · have := congrArg List.reverse hAB
    rw [List.reverse_reverse] at this
    rw [this]
    simp
  · rw [List.filter_reverse, hA]
    rfl

/-- A duplicate-free list of naturals all below `n` has at most `n`
entries. -/
theorem nodup_length_le {L : List Nat} {n : Nat} (hnd : L.Nodup)
    (hlt : ∀ x ∈ L, x < n) : L.length ≤ n := by
  have hsub : L.toFinset ⊆ Finset.range n := by
    intro x hx
    rw [List.mem_toFinset] at hx
    exact Finset.mem_range.mpr (hlt x hx)
  have := Finset.card_le_card hsub
  rwa [List.toFinset_card_of_nodup hnd, Finset.card_range] at this

/-! ## Chain lemmas -/

theorem endRef_nil (r : NodeRef) : endRef r [] = r := rfl

theorem getLast?_cons_ex {α : Type} (a : α) (l : List α) :
    ∃ y, (a :: l).getLast? = some y := by
  induction l generalizing a with
  | nil => exact ⟨a, rfl⟩
  | cons b m ih =>
    obtain ⟨y, hy⟩ := ih b
    exact ⟨y, by rw [List.getLast?_cons_cons]; exact hy⟩

theorem endRef_cons (r : NodeRef) (a : EId) (l : List EId) :
    endRef r (a :: l) = endRef (.elem a) l := by
  cases l with
  | nil => rfl
  | cons b m =>
    obtain ⟨y, hy⟩ := getLast?_cons_ex b m
    simp [endRef, List.getLast?_cons_cons, hy]

/-- The end of a walk over a nonempty passed-over list is one of its
elements. -/
theorem endRef_cons_mem (r : NodeRef) (a : EId) (A : List EId) :
    ∃ y ∈ a :: A, endRef r (a :: A) = .elem y := by
  obtain ⟨y, hy⟩ := getLast?_cons_ex a A
  exact ⟨y, List.mem_of_mem_getLast? hy, by simp [endRef, hy]⟩

theorem endRef_append_cons (r : NodeRef) (A : List EId) (a : EId) (B : List EId) :
    endRef r (A ++ a :: B) = endRef (.elem a) B := by
  induction A generalizing r with
  | nil => exact endRef_cons r a B
  | cons x X ih => rw [List.cons_append, endRef_cons]; exact ih (.elem x)

theorem endRef_eq_or_mem (r : NodeRef) (l : List EId) :
    endRef r l = r ∨ ∃ y ∈ l, endRef r l = .elem y := by
  cases h : l.getLast? with
  | none => left; simp [endRef, h]
  | some y =>
    right
    refine ⟨y, ?_, by simp [endRef, h]⟩
    cases l with
    | nil => simp at h
    | cons x m => exact List.mem_of_mem_getLast? h

/-- The forward pointer out of the start of a chain is the chain's first
element (or `nil`). -/
theorem IsChainFrom.link {s : SkipList} {i : Nat} {r : NodeRef} {M : List EId}
    (h : IsChainFrom s i r M) : nodeNextAt s r i = some M.head? := by
  cases h with
  | nil h => simpa using h
  | cons h _ => simpa using h

/-- Chains are determined by their start: `nodeNextAt` is a function. -/
theorem IsChainFrom.unique {s : SkipList} {i : Nat} :
    ∀ {r : NodeRef} {L1 L2 : List EId},
      IsChainFrom s i r L1 → IsChainFrom s i r L2 → L1 = L2 := by
  intro r L1
  induction L1 generalizing r with
  | nil =>
    intro L2 h1 h2
    cases h1 with | nil h1 =>
    cases h2 with
    | nil h2 => rfl
    | cons h2 _ => rw [h1] at h2; cases h2
  | cons a L ih =>
    intro L2 h1 h2
    cases h1 with | cons h1 htail1 =>
    cases h2 with
    | nil h2 => rw [h1] at h2; cases h2
    | cons h2 htail2 =>
      rw [h1] at h2
      injection h2 with h2
      injection h2 with h2
      subst h2
      rw [ih htail1 htail2]

/-- Dropping a prefix of a chain leaves a chain from the prefix's end. -/
theorem IsChainFrom.suffix {s : SkipList} {i : Nat} :
    ∀ {A B : List EId} {r : NodeRef},
      IsChainFrom s i r (A ++ B) → IsChainFrom s i (endRef r A) B := by
  intro A
  induction A with
  | nil => intro B r h; exact h
  | cons a A ih =>
    intro B r h
    cases h with | cons hl ht =>
    rw [endRef_cons]
    exact ih ht

/-- A chain never returns to its starting element. -/
theorem IsChainFrom.not_revisit {s : SkipList} {i : Nat} {x : EId} {L : List EId}
    (h : IsChainFrom s i (.elem x) L) : x ∉ L := by
  intro hmem
  obtain ⟨C, D, hCD⟩ := List.append_of_mem hmem
  subst hCD
  have hsuf : IsChainFrom s i (endRef (.elem x) (C ++ [x])) D := by
    have h' : IsChainFrom s i (.elem x) ((C ++ [x]) ++ D) := by simpa using h
    exact h'.suffix
  rw [show endRef (.elem x) (C ++ [x]) = .elem x by simp [endRef, List.getLast?_concat]] at hsuf
  have := h.unique hsuf
  have hlen := congrArg List.length this
  simp at hlen
  omega

/-- Chain members are pairwise distinct. -/
theorem IsChainFrom.nodup {s : SkipList} {i : Nat} :
    ∀ {r : NodeRef} {L : List EId}, IsChainFrom s i r L → L.Nodup := by
  intro r L
  induction L generalizing r with
  | nil => intro _; exact List.nodup_nil
  | cons a L ih =>
    intro h
    cases h with | cons hl ht =>
    exact List.nodup_cons.mpr ⟨ht.not_revisit, ih ht⟩

/-- Transferring a chain to a state that agrees on the relevant forward
pointers. -/
theorem IsChainFrom.congr {s s' : SkipList} {i : Nat} :
    ∀ {r : NodeRef} {L : List EId}, IsChainFrom s i r L →
      nodeNextAt s' r i = nodeNextAt s r i →
      (∀ a ∈ L, nodeNextAt s' (.elem a) i = nodeNextAt s (.elem a) i) →
      IsChainFrom s' i r L := by
  intro r L
  induction L generalizing r with
  | nil =>
    intro h hr _
    cases h with | nil h =>
    exact .nil (by rw [hr, h])
  | cons a L ih =>
    intro h hr hL
    cases h with | cons hl ht =>
    exact .cons (by rw [hr, hl])
      (ih ht (hL a (by simp)) (fun b hb => hL b (by simp [hb])))

/-- Chain surgery for insertion: if the state changes exactly by pointing
`pred` (the end of the passed-over prefix `A`) at the fresh element
`newId` and pointing `newId` at what `pred` used to point at, the chain
gains exactly `newId` between `A` and `B`. -/
theorem chain_insert {s s' : SkipList} {i : Nat} {newId : EId} {pred : NodeRef}
    {B : List EId}
    (hchar : ∀ x, nodeNextAt s' x i =
      if x = pred then some (some newId)
      else if x = .elem newId then some B.head?
      else nodeNextAt s x i)
    (hBnew : ∀ b ∈ B, b ≠ newId) (hBpred : ∀ b ∈ B, NodeRef.elem b ≠ pred) :
    ∀ {r : NodeRef} {A : List EId}, IsChainFrom s i r (A ++ B) → endRef r A = pred →
      (∀ a ∈ A, a ≠ newId) → r ≠ .elem newId →
      IsChainFrom s' i r (A ++ newId :: B) := by
  intro r A
  induction A generalizing r with
  | nil =>
    intro h hend _ hrnew
    rw [endRef_nil] at hend
    subst hend
    have hpredNew : NodeRef.elem newId ≠ r := fun hh => hrnew hh.symm
    refine .cons (by rw [hchar r]; simp) ?_
    have hlinkNew : nodeNextAt s' (.elem newId) i = some B.head? := by
      rw [hchar (.elem newId), if_neg hpredNew, if_pos rfl]
    cases hB : B with
    | nil =>
      subst hB
      exact .nil (by rw [hlinkNew]; rfl)
    | cons b B' =>
      subst hB
      refine .cons (by rw [hlinkNew]; rfl) ?_
      cases h with | cons hl ht =>
      exact ht.congr
        (by
          rw [hchar (.elem b), if_neg (hBpred b (by simp)), if_neg ?_]
          simp [hBnew b (by simp)])
        (fun c hc => by
          rw [hchar (.elem c), if_neg (hBpred c (by simp [hc])), if_neg ?_]
          simp [hBnew c (by simp [hc])])
  | cons a A ih =>
    intro h hend hAnew hrnew
    cases h with | cons hl ht =>
    have hrpred : r ≠ pred := by
      intro hh
      obtain ⟨y, hymem, hye⟩ := endRef_cons_mem r a A
      have hpy : pred = .elem y := hend.symm.trans hye
      have hry : r = .elem y := hh.trans hpy
      have h' : IsChainFrom s i (.elem y) (a :: (A ++ B)) := by
        rw [← hry]; exact .cons hl ht
      exact h'.not_revisit (by
        rcases List.mem_cons.mp hymem with h | h
        · simp [h]
        · simp [h])
    refine .cons (by rw [hchar r, if_neg hrpred, if_neg hrnew, hl]) ?_
    have : IsChainFrom s' i (.elem a) (A ++ newId :: B) :=
      ih ht ((endRef_cons r a A).symm.trans hend)
        (fun x hx => hAnew x (by simp [hx]))
        (by simp [hAnew a (by simp)])
    simpa using this

/-- Chain surgery for removal: if the state changes exactly by pointing
`pred` at what `remId` pointed at, the chain loses exactly `remId`. -/
theorem chain_remove {s s' : SkipList} {i : Nat} {remId : EId} {pred : NodeRef}
    {B : List EId}
    (hchar : ∀ x, nodeNextAt s' x i =
      if x = pred then some B.head? else nodeNextAt s x i)
    (hBpred : ∀ b ∈ B, NodeRef.elem b ≠ pred) :
    ∀ {r : NodeRef} {A : List EId}, IsChainFrom s i r (A ++ remId :: B) →
      endRef r A = pred → IsChainFrom s' i r (A ++ B) := by
  intro r A
  induction A generalizing r with
  | nil =>
    intro h hend
    rw [endRef_nil] at hend
    subst hend
    refine ?_
    cases h with | cons hl ht =>
    cases hB : B with
    | nil =>
      subst hB
      exact .nil (by rw [hchar r, if_pos rfl]; rfl)
    | cons b B' =>
      subst hB
      refine .cons (by rw [hchar r, if_pos rfl]; rfl) ?_
      cases ht with | cons hl2 ht2 =>
      exact ht2.congr
        (by rw [hchar (.elem b), if_neg (hBpred b (by simp))])
        (fun c hc => by rw [hchar (.elem c), if_neg (hBpred c (by simp [hc]))])
  | cons a A ih =>
    intro h hend
    cases h with | cons hl ht =>
    have hrpred : r ≠ pred := by
      intro hh
      obtain ⟨y, hymem, hye⟩ := endRef_cons_mem r a A
      have hpy : pred = .elem y := hend.symm.trans hye
      have hry : r = .elem y := hh.trans hpy
      have h' : IsChainFrom s i (.elem y) (a :: (A ++ remId :: B)) := by
        rw [← hry]; exact .cons hl ht
      exact h'.not_revisit (by
        rcases List.mem_cons.mp hymem with h | h
        · simp [h]
        · simp [h])
    refine .cons (by rw [hchar r, if_neg hrpred, hl]) ?_
    have : IsChainFrom s' i (.elem a) (A ++ B) :=
      ih ht ((endRef_cons r a A).symm.trans hend)
    simpa using this

/-! ## Accessor and store lemmas -/

theorem passb_iff {s : SkipList} {k : Key} {id : EId} :
    passb s k id = true ↔ bytesCompare k (keyOf s id) = .gt := by
  simp [passb]

theorem passb_false_iff {s : SkipList} {k : Key} {id : EId} :
    passb s k id = false ↔ ¬ bytesCompare k (keyOf s id) = .gt := by
  simp [passb]

theorem heightb_iff {s : SkipList} {i : Nat} {id : EId} :
    heightb s i id = true ↔ i < heightOf s id := by
  simp [heightb]

theorem keyOf_eq {s : SkipList} {id : EId} {e : Element}
    (h : s.heap[id]? = some e) : keyOf s id = e.key := by
  simp [keyOf, h]

theorem heightOf_eq {s : SkipList} {id : EId} {e : Element}
    (h : s.heap[id]? = some e) : heightOf s id = e.next.length := by
  simp [heightOf, h]

theorem heap_get_of_lt {s : SkipList} {id : EId} (h : id < s.heap.length) :
    ∃ e, s.heap[id]? = some e :=
  ⟨s.heap[id], List.getElem?_eq_getElem h⟩

theorem nodeNextAt_congr {s s' : SkipList} (hh : s'.headNext = s.headNext)
    (hp : s'.heap = s.heap) (r : NodeRef) (i : Nat) :
    nodeNextAt s' r i = nodeNextAt s r i := by
  cases r <;> simp [nodeNextAt, nodeSlots, hh, hp]

theorem keyOf_congr {s s' : SkipList} (hp : s'.heap = s.heap) (id : EId) :
    keyOf s' id = keyOf s id := by simp [keyOf, hp]

theorem heightOf_congr {s s' : SkipList} (hp : s'.heap = s.heap) (id : EId) :
    heightOf s' id = heightOf s id := by simp [heightOf, hp]

theorem SameShape.refl (s : SkipList) : SameShape s s :=
  ⟨rfl, rfl, fun _ => rfl, fun _ => rfl, fun _ => rfl, rfl, rfl, rfl, rfl, rfl, rfl, rfl⟩

theorem SameShape.trans {s3 s2 s1 : SkipList} (h2 : SameShape s3 s2)
    (h1 : SameShape s2 s1) : SameShape s3 s1 where
  heap_len := h2.heap_len.trans h1.heap_len
  head_len := h2.head_len.trans h1.head_len
  key_eq := fun id => (h2.key_eq id).trans (h1.key_eq id)
  value_eq := fun id => (h2.value_eq id).trans (h1.value_eq id)
  height_eq := fun id => (h2.height_eq id).trans (h1.height_eq id)
  max_eq := h2.max_eq.trans h1.max_eq
  len_eq := h2.len_eq.trans h1.len_eq
  rand_eq := h2.rand_eq.trans h1.rand_eq
  used_eq := h2.used_eq.trans h1.used_eq
  prob_eq := h2.prob_eq.trans h1.prob_eq
  table_eq := h2.table_eq.trans h1.table_eq
  cache_eq := h2.cache_eq.trans h1.cache_eq

theorem SameShape.slotOk {s' s : SkipList} (hs : SameShape s' s) {r : NodeRef}
    {i : Nat} (h : SlotOk s r i) : SlotOk s' r i := by
  cases r with
  | head =>
    show i < s'.headNext.length
    rw [hs.head_len]
    exact h
  | elem id =>
    obtain ⟨e, he, hlen⟩ := h
    have hid : id < s'.heap.length := by
      rw [hs.heap_len]
      exact (List.getElem?_eq_some.mp he).1
    obtain ⟨e', he'⟩ := heap_get_of_lt hid
    refine ⟨e', he', ?_⟩
    have h1 : heightOf s' id = e'.next.length := heightOf_eq he'
    have h2 : heightOf s id = e.next.length := heightOf_eq he
    rw [← h1, hs.height_eq id, h2]
    exact hlen

/-- The full effect of one forward-pointer store: the written slot holds
`v`, every other slot everywhere is untouched, and the state keeps its
shape. -/
theorem writeNextAt_some {s s' : SkipList} {r : NodeRef} {i : Nat} {v : Option EId}
    (h : writeNextAt s r i v = some s') :
    SameShape s' s ∧
      ∀ x j, nodeNextAt s' x j = if x = r ∧ j = i then some v else nodeNextAt s x j := by
  cases r with
  | head =>
    rw [writeNextAt] at h
    by_cases hlt : i < s.headNext.length
    · rw [if_pos hlt] at h
      injection h with h
      subst h
      constructor
      · exact ⟨rfl, by simp, fun _ => rfl, fun _ => rfl, fun _ => rfl,
          rfl, rfl, rfl, rfl, rfl, rfl, rfl⟩
      · intro x j
        cases x with
        | head =>
          by_cases hji : j = i
          · subst hji
            simp [nodeNextAt, nodeSlots, List.getElem?_set, hlt]
          · simp [nodeNextAt, nodeSlots, List.getElem?_set, hji, Ne.symm hji]
        | elem id2 => simp [nodeNextAt, nodeSlots]
    · rw [if_neg hlt] at h; cases h
  | elem id =>
    rw [writeNextAt] at h
    cases he : s.heap[id]? with
    | none => simp only [he] at h; cases h
    | some e =>
      simp only [he] at h
      by_cases hlt : i < e.next.length
      · rw [if_pos hlt] at h
        injection h with h
        subst h
        have hid : id < s.heap.length := (List.getElem?_eq_some.mp he).1
        constructor
        · refine ⟨by simp, rfl, ?_, ?_, ?_, rfl, rfl, rfl, rfl, rfl, rfl, rfl⟩
          · intro id2
            by_cases hii : id2 = id
            · subst hii
              simp [keyOf, List.getElem?_set, hid, he]
            · simp [keyOf, List.getElem?_set_ne (Ne.symm hii)]
          · intro id2
            by_cases hii : id2 = id
            · subst hii
              simp [valueOf, List.getElem?_set, hid, he]
            · simp [valueOf, List.getElem?_set_ne (Ne.symm hii)]
          · intro id2
            by_cases hii : id2 = id
            · subst hii
              simp [heightOf, List.getElem?_set, hid, he]
            · simp [heightOf, List.getElem?_set_ne (Ne.symm hii)]
        · intro x j
          cases x with
          | head => simp [nodeNextAt, nodeSlots]
          | elem id2 =>
            by_cases hii : id2 = id
            · subst hii
              by_cases hji : j = i
              · subst hji
                simp [nodeNextAt, nodeSlots, List.getElem?_set, hid, he, hlt]
              · simp [nodeNextAt, nodeSlots, List.getElem?_set, hid, he, hji, Ne.symm hji]
            · simp [nodeNextAt, nodeSlots, List.getElem?_set_ne (Ne.symm hii), hii]
      · rw [if_neg hlt] at h; cases h

/-- A store succeeds exactly on existing slots. -/
theorem writeNextAt_total {s : SkipList} {r : NodeRef} {i : Nat} (v : Option EId)
    (h : SlotOk s r i) : ∃ s', writeNextAt s r i v = some s' := by
  cases r with
  | head =>
    exact ⟨_, by rw [writeNextAt, if_pos (show i < s.headNext.length from h)]⟩
  | elem id =>
    obtain ⟨e, he, hlt⟩ := h
    exact ⟨_, by rw [writeNextAt]; simp only [he]; rw [if_pos hlt]⟩

/-! ## Walk correctness -/

/-- Correctness of the one-level walk: over the chain `ids`, it passes
exactly the elements whose keys are below the search key and stops at the
first one at or beyond it. -/
theorem walkLevel_spec {s : SkipList} {k : Key} {i : Nat} :
    ∀ {ids : List EId} {prev : NodeRef} {fuel : Nat},
      IsChainFrom s i prev ids → (∀ id ∈ ids, id < s.heap.length) →
      (ids.takeWhile (passb s k)).length < fuel →
      walkLevel s k i fuel prev =
        some (endRef prev (ids.takeWhile (passb s k)), (ids.dropWhile (passb s k)).head?) := by
  intro ids
  induction ids with
  | nil =>
    intro prev fuel h _ hfuel
    cases h with | nil h =>
    cases fuel with
    | zero => simp at hfuel
    | succ f => simp [walkLevel, h, endRef_nil]
  | cons a rest ih =>
    intro prev fuel h hvalid hfuel
    cases h with | cons hl ht =>
    obtain ⟨e, he⟩ := heap_get_of_lt (hvalid a (by simp))
    cases fuel with
    | zero => simp at hfuel
    | succ f =>
      by_cases hp : passb s k a = true
      · have hcmp : bytesCompare k e.key = .gt := by
          rw [← keyOf_eq he]
          exact passb_iff.mp hp
        have hrec := ih ht (fun x hx => hvalid x (by simp [hx]))
          (by
            rw [List.takeWhile_cons, if_pos hp] at hfuel
            simpa using Nat.lt_of_succ_lt_succ hfuel)
        rw [walkLevel]
        simp only [hl, he, if_pos hcmp]
        rw [hrec]
        rw [List.takeWhile_cons, if_pos hp, List.dropWhile_cons, if_pos hp, endRef_cons]
      · have hcmp : ¬ bytesCompare k e.key = .gt := by
          rw [← keyOf_eq he]
          intro hc
          exact hp (passb_iff.mpr hc)
        rw [walkLevel]
        simp only [hl, he, if_neg hcmp]
        rw [List.takeWhile_cons, if_neg hp, List.dropWhile_cons, if_neg hp, endRef_nil]
        rfl

/-! ## Facts about well-formed chain structures -/

theorem chainAt_zero {s : SkipList} {L : List EId} (hc : Chains s L) :
    chainAt s L 0 = L := by
  rw [chainAt, List.filter_eq_self]
  intro id hid
  exact heightb_iff.mpr (hc.height_pos id hid)

theorem chainAt_subset {s : SkipList} {L : List EId} (i : Nat) :
    ∀ id ∈ chainAt s L i, id ∈ L := fun _ h => (List.filter_sublist L).subset h

theorem chainAt_sorted {s : SkipList} {L : List EId} (hc : Chains s L) (i : Nat) :
    List.Pairwise (fun a b => bytesCompare (keyOf s a) (keyOf s b) = .lt) (chainAt s L i) :=
  hc.sorted.filter _

theorem chainAt_ge_max {s : SkipList} {L : List EId} (hc : Chains s L) {i : Nat}
    (hi : s.maxLevel ≤ i) : chainAt s L i = [] := by
  rw [chainAt, List.filter_eq_nil_iff]
  intro id hid hb
  have := heightb_iff.mp hb
  have := hc.height_le id hid
  omega

/-- The pass test is closed downwards along the sort order. -/
theorem passb_closed {s : SkipList} {k : Key} :
    ∀ a b, bytesCompare (keyOf s a) (keyOf s b) = .lt →
      passb s k b = true → passb s k a = true := by
  intro a b hab hb
  rw [passb_iff] at hb ⊢
  exact bytesCompare_lt_gt.mp
    (bytesCompare_lt_trans hab (bytesCompare_lt_gt.mpr hb))

theorem loAt_filter {s : SkipList} {L : List EId} (hc : Chains s L) (k : Key) (i : Nat) :
    loAt s k L i = (chainAt s L i).filter (passb s k) :=
  (takeWhile_eq_filter_of_pairwise (chainAt_sorted hc i) passb_closed).1

theorem hiAt_filter {s : SkipList} {L : List EId} (hc : Chains s L) (k : Key) (i : Nat) :
    hiAt s k L i = (chainAt s L i).filter (fun x => !(passb s k x)) :=
  (takeWhile_eq_filter_of_pairwise (chainAt_sorted hc i) passb_closed).2

theorem chainAt_succ {s : SkipList} {L : List EId} (i : Nat) :
    chainAt s L (i + 1) = (chainAt s L i).filter (heightb s (i + 1)) := by
  rw [chainAt, chainAt, List.filter_filter]
  refine (List.filter_congr ?_).symm
  intro id _
  rcases h : heightb s (i + 1) id with _ | _
  · simp
  · have h1 : heightb s i id = true := by
      rw [heightb_iff] at h ⊢
      omega
    simp [h1]

theorem loAt_succ {s : SkipList} {L : List EId} (hc : Chains s L) (k : Key) (i : Nat) :
    loAt s k L (i + 1) = (loAt s k L i).filter (heightb s (i + 1)) := by
  rw [loAt_filter hc, loAt_filter hc, chainAt_succ, List.filter_filter, List.filter_filter]
  exact List.filter_congr (fun id _ => Bool.and_comm _ _)

theorem hiAt_succ {s : SkipList} {L : List EId} (hc : Chains s L) (k : Key) (i : Nat) :
    hiAt s k L (i + 1) = (hiAt s k L i).filter (heightb s (i + 1)) := by
  rw [hiAt_filter hc, hiAt_filter hc, chainAt_succ, List.filter_filter, List.filter_filter]
  exact List.filter_congr (fun id _ => Bool.and_comm _ _)

theorem L_nodup {s : SkipList} {L : List EId} (hc : Chains s L) : L.Nodup := by
  have h := hc.chains 0 (by rw [DefaultMaxLevel]; omega)
  rw [chainAt_zero hc] at h
  exact h.nodup

theorem L_length_le {s : SkipList} {L : List EId} (hc : Chains s L) :
    L.length ≤ s.heap.length :=
  nodup_length_le (L_nodup hc) hc.valid

theorem hiAt_not_pass {s : SkipList} {L : List EId} (hc : Chains s L) (k : Key)
    (i : Nat) : ∀ b ∈ hiAt s k L i, passb s k b = false := by
  intro b hb
  rw [hiAt_filter hc] at hb
  have := (List.mem_filter.mp hb).2
  simpa using this

theorem loAt_pass {s : SkipList} {k : Key} {L : List EId} (i : Nat) :
    ∀ b ∈ loAt s k L i, passb s k b = true :=
  fun _ hb => List.mem_takeWhile_imp hb

theorem loAt_subset {s : SkipList} {k : Key} {L : List EId} (i : Nat) :
    ∀ b ∈ loAt s k L i, b ∈ L :=
  fun b hb => chainAt_subset i b ((List.takeWhile_sublist _).subset hb)

theorem hiAt_subset {s : SkipList} {k : Key} {L : List EId} (i : Nat) :
    ∀ b ∈ hiAt s k L i, b ∈ L :=
  fun b hb => chainAt_subset i b ((List.dropWhile_sublist _).subset hb)

theorem predAt_max {s : SkipList} {L : List EId} (hc : Chains s L) (k : Key) :
    predAt s k L s.maxLevel = .head := by
  rw [predAt, loAt, chainAt_ge_max hc (Nat.le_refl _)]
  rfl

/-- The walk at level `c` starting from the level-`c+1` predecessor: the
remaining passed-over stretch `B` of the level-`c` chain leads to the
level-`c` predecessor, followed by the level-`c` tail. -/
theorem pred_step {s : SkipList} {L : List EId} (hc : Chains s L) (k : Key)
    {c : Nat} (hcd : c < DefaultMaxLevel) :
    ∃ B, IsChainFrom s c (predAt s k L (c + 1)) (B ++ hiAt s k L c) ∧
      endRef (predAt s k L (c + 1)) B = predAt s k L c ∧
      (∀ b ∈ B, passb s k b = true) ∧ (∀ b ∈ B, b ∈ L) := by
  have hsplit : loAt s k L c ++ hiAt s k L c = chainAt s L c :=
    List.takeWhile_append_dropWhile _ _
  have hlo1 : loAt s k L (c + 1) = (loAt s k L c).filter (heightb s (c + 1)) :=
    loAt_succ hc k c
  cases hlast : (loAt s k L (c + 1)).getLast? with
  | none =>
    have hnil : loAt s k L (c + 1) = [] := List.getLast?_eq_none_iff.mp hlast
    have hpred : predAt s k L (c + 1) = .head := by rw [predAt, hnil]; rfl
    refine ⟨loAt s k L c, ?_, ?_, loAt_pass c, loAt_subset c⟩
    · rw [hpred, hsplit]
      exact hc.chains c hcd
    · rw [hpred]; rfl
  | some a =>
    have hfl : ((loAt s k L c).filter (heightb s (c + 1))).getLast? = some a := by
      rw [← hlo1]; exact hlast
    obtain ⟨A, B, hAB, _⟩ := filter_getLast?_split hfl
    have hpred : predAt s k L (c + 1) = .elem a := by
      rw [predAt, endRef, hlast]; rfl
    refine ⟨B, ?_, ?_, ?_, ?_⟩
    · have hch := hc.chains c hcd
      rw [← hsplit, hAB] at hch
      have hch' : IsChainFrom s c .head ((A ++ [a]) ++ (B ++ hiAt s k L c)) := by
        simpa using hch
      have := hch'.suffix
      rw [show endRef .head (A ++ [a]) = .elem a by
        simp [endRef, List.getLast?_concat]] at this
      rw [hpred]
      exact this
    · rw [hpred, predAt, hAB, endRef_append_cons]
    · intro b hb
      exact loAt_pass c b (by rw [hAB]; simp [hb])
    · intro b hb
      exact loAt_subset c b (by rw [hAB]; simp [hb])

/-- One full level of the search: from the level-`c+1` predecessor, the
level-`c` walk ends at the level-`c` predecessor, facing the level-`c`
tail. -/
theorem walk_from_pred {s : SkipList} {L : List EId} (hc : Chains s L) (k : Key)
    {c : Nat} (hcd : c < DefaultMaxLevel) :
    walkLevel s k c (s.heap.length + 1) (predAt s k L (c + 1)) =
      some (predAt s k L c, (hiAt s k L c).head?) := by
  obtain ⟨B, hchain, hend, hpass, hmem⟩ := pred_step hc k hcd
  have hvalid : ∀ id ∈ B ++ hiAt s k L c, id < s.heap.length := by
    intro id hid
    rcases List.mem_append.mp hid with h | h
    · exact hc.valid id (hmem id h)
    · exact hc.valid id (hiAt_subset c id h)
  have hBnodup : B.Nodup := (List.sublist_append_left B _).nodup hchain.nodup
  have hfuel : B.length < s.heap.length + 1 :=
    Nat.lt_succ_of_le (nodup_length_le hBnodup (fun x hx => hc.valid x (hmem x hx)))
  have htw := takeWhile_append_of (p := passb s k) hpass
    (fun x hx => hiAt_not_pass hc k c x (List.mem_of_mem_head? (Option.mem_def.mpr hx)))
  rw [walkLevel_spec hchain hvalid (by rw [htw.1]; exact hfuel), htw.1, htw.2, hend]

theorem optionBind_some {α β : Type} (a : α) (f : α → Option β) :
    (do let x ← some a; f x) = f a := rfl

/-- Correctness of `Get`'s descending search loop. -/
theorem search_descent {s : SkipList} {L : List EId} (hc : Chains s L) (k : Key)
    (hml : s.maxLevel ≤ DefaultMaxLevel) :
    ∀ c, 1 ≤ c → c ≤ s.maxLevel →
      searchLevels s k c (predAt s k L c) =
        some (predAt s k L 0, (hiAt s k L 0).head?) := by
  intro c
  induction c with
  | zero => intro h; omega
  | succ c ih =>
    intro _ hle
    have hcd : c < DefaultMaxLevel := by omega
    have hwalk := walk_from_pred hc k hcd
    rw [searchLevels]
    simp only [hwalk, optionBind_some]
    cases c with
    | zero => rfl
    | succ c' => exact ih (by omega) (by omega)

/-- Correctness of the `getPrevElementNodes` loop: it ends at the level-0
predecessor facing the level-0 tail, and records the per-level predecessor
in every processed slot of the buffer. -/
theorem gpen_descent {s : SkipList} {L : List EId} (hc : Chains s L) (k : Key)
    (hml : s.maxLevel ≤ DefaultMaxLevel) :
    ∀ c, 1 ≤ c → c ≤ s.maxLevel → ∀ prevs : List (Option NodeRef), c ≤ prevs.length →
      ∃ prevs', gpenLevels s k c (predAt s k L c) prevs =
          some (predAt s k L 0, (hiAt s k L 0).head?, prevs') ∧
        prevs'.length = prevs.length ∧
        (∀ j, j < c → prevs'[j]? = some (some (predAt s k L j))) ∧
        (∀ j, c ≤ j → prevs'[j]? = prevs[j]?) := by
  intro c
  induction c with
  | zero => intro h; omega
  | succ c ih =>
    intro _ hle prevs hplen
    have hcd : c < DefaultMaxLevel := by omega
    have hwalk := walk_from_pred hc k hcd
    have hset : setOrPanic prevs c (some (predAt s k L c)) =
        some (prevs.set c (some (predAt s k L c))) := by
      rw [setOrPanic, if_pos (by omega)]
    rw [gpenLevels]
    simp only [hwalk, optionBind_some]
    rw [hset]
    simp only [optionBind_some]
    cases c with
    | zero =>
      refine ⟨prevs.set 0 (some (predAt s k L 0)), rfl, by simp, ?_, ?_⟩
      · intro j hj
        have hj0 : j = 0 := by omega
        subst hj0
        exact List.getElem?_set_eq_of_lt _ (by omega)
      · intro j hj
        exact List.getElem?_set_ne (by omega)
    | succ c' =>
      obtain ⟨prevs', heq, hlen, hlt, hge⟩ :=
        ih (by omega) (by omega) (prevs.set (c' + 1) (some (predAt s k L (c' + 1))))
          (by rw [List.length_set]; omega)
      refine ⟨prevs', heq, by rw [hlen, List.length_set], ?_, ?_⟩
      · intro j hj
        by_cases hjc : j < c' + 1
        · exact hlt j hjc
        · have hj' : j = c' + 1 := by omega
          rw [hj', hge (c' + 1) (Nat.le_refl _),
            List.getElem?_set_eq_of_lt _ (by omega)]
      · intro j hj
        rw [hge j (by omega), List.getElem?_set_ne (by omega)]

/-! ## Invariant transfer and the search-facing operation lemmas -/

theorem chainAt_congr {s s' : SkipList} (hh : ∀ id, heightOf s' id = heightOf s id)
    (L : List EId) (i : Nat) : chainAt s' L i = chainAt s L i :=
  List.filter_congr (fun id _ => by simp [heightb, hh id])

/-- `Chains` only depends on the state through keys, heights, forward
pointers, the heap size, `maxLevel` and `Length`. -/
theorem Chains_congr {s s' : SkipList} {L : List EId}
    (hlen2 : s'.heap.length = s.heap.length)
    (hk : ∀ id, keyOf s' id = keyOf s id)
    (hh : ∀ id, heightOf s' id = heightOf s id)
    (hn : ∀ r i, nodeNextAt s' r i = nodeNextAt s r i)
    (hml : s'.maxLevel = s.maxLevel) (hlen : s'.length = s.length)
    (hc : Chains s L) : Chains s' L where
  valid := fun id hid => hlen2 ▸ hc.valid id hid
  sorted := hc.sorted.imp (fun {a b} hab => by rw [hk a, hk b]; exact hab)
  height_pos := fun id hid => (hh id) ▸ hc.height_pos id hid
  height_le := fun id hid => by rw [hh id, hml]; exact hc.height_le id hid
  chains := fun i hi => by
    rw [chainAt_congr hh]
    exact (hc.chains i hi).congr (hn _ i) (fun a _ => hn _ i)
  len := by rw [hlen]; exact hc.len

theorem cache_set_chains {s : SkipList} {L : List EId} (hc : Chains s L)
    (P : List (Option NodeRef)) : Chains { s with prevNodesCache := P } L :=
  @Chains_congr s { s with prevNodesCache := P } L rfl (fun _ => rfl) (fun _ => rfl)
    (fun r i => nodeNextAt_congr rfl rfl r i) rfl rfl hc

/-- Specification of `getPrevElementNodes` on a well-formed state: it
completes, writes back the buffer, and slot `j < maxLevel` holds the
level-`j` predecessor. -/
theorem gpen_spec {s : SkipList} {L : List EId} (hc : Chains s L) (k : Key)
    (hml1 : 1 ≤ s.maxLevel) (hml : s.maxLevel ≤ DefaultMaxLevel)
    (hcl : s.prevNodesCache.length = DefaultMaxLevel) :
    ∃ P, getPrevElementNodes s k = some ({ s with prevNodesCache := P }, P) ∧
      P.length = DefaultMaxLevel ∧
      (∀ j, j < s.maxLevel → P[j]? = some (some (predAt s k L j))) ∧
      (∀ j, s.maxLevel ≤ j → P[j]? = s.prevNodesCache[j]?) := by
  obtain ⟨P, heq, hlen, hlt, hge⟩ := gpen_descent hc k hml s.maxLevel hml1
    (Nat.le_refl _) s.prevNodesCache (by omega)
  rw [predAt_max hc k] at heq
  refine ⟨P, ?_, by rw [hlen, hcl], hlt, hge⟩
  rw [getPrevElementNodes]
  simp only [heq, optionBind_some]
  rfl

/-- The candidate the operations test: the successor of the level-0
predecessor is the first element at or beyond the key. -/
theorem cand_spec {s : SkipList} {L : List EId} (hc : Chains s L) (k : Key) :
    nodeNextAt s (predAt s k L 0) 0 = some ((hiAt s k L 0).head?) := by
  have hch := hc.chains 0 (by rw [DefaultMaxLevel]; omega)
  rw [← List.takeWhile_append_dropWhile (passb s k) (chainAt s L 0)] at hch
  exact hch.suffix.link

theorem hi_head_mem {s : SkipList} {k : Key} {L : List EId} {h0 : EId}
    (hh : (hiAt s k L 0).head? = some h0) : h0 ∈ L :=
  hiAt_subset 0 h0 (List.mem_of_mem_head? (Option.mem_def.mpr hh))

/-- If an element with the search key exists, it heads the level-0 tail. -/
theorem hi_head_of_present {s : SkipList} {L : List EId} (hc : Chains s L)
    {k : Key} {id : EId} (hid : id ∈ L) (hkey : keyOf s id = k) :
    (hiAt s k L 0).head? = some id := by
  have hsplit : loAt s k L 0 ++ hiAt s k L 0 = L := by
    rw [loAt, hiAt, List.takeWhile_append_dropWhile, chainAt_zero hc]
  have hnotlo : id ∉ loAt s k L 0 := by
    intro hmem
    have := passb_iff.mp (loAt_pass 0 id hmem)
    rw [hkey] at this
    rw [show bytesCompare k k = .eq from bytesCompare_self k] at this
    cases this
  have hinhi : id ∈ hiAt s k L 0 := by
    have : id ∈ loAt s k L 0 ++ hiAt s k L 0 := by rw [hsplit]; exact hid
    rcases List.mem_append.mp this with h | h
    · exact absurd h hnotlo
    · exact h
  cases hhi : hiAt s k L 0 with
  | nil => rw [hhi] at hinhi; cases hinhi
  | cons h0 t =>
    rw [hhi] at hinhi
    rcases List.mem_cons.mp hinhi with h | h
    · rw [h]; rfl
    · exfalso
      have hsor : List.Pairwise
          (fun a b => bytesCompare (keyOf s a) (keyOf s b) = .lt) (h0 :: t) := by
        rw [← hhi]
        exact List.Pairwise.sublist
          ((List.dropWhile_sublist _).trans (List.filter_sublist L)) hc.sorted
      have hlt : bytesCompare (keyOf s h0) (keyOf s id) = .lt :=
        (List.pairwise_cons.mp hsor).1 id h
      have hnp : passb s k h0 = false := hiAt_not_pass hc k 0 h0 (by rw [hhi]; simp)
      rw [hkey] at hlt
      exact (passb_false_iff.mp hnp) (bytesCompare_lt_gt.mp hlt)

theorem no_key_of_hi_empty {s : SkipList} {L : List EId} (hc : Chains s L)
    {k : Key} (hhi : hiAt s k L 0 = []) : ∀ id ∈ L, keyOf s id ≠ k := by
  intro id hid hkey
  have := hi_head_of_present hc hid hkey
  rw [hhi] at this
  cases this

theorem no_key_of_hi_gt {s : SkipList} {L : List EId} (hc : Chains s L)
    {k : Key} {h0 : EId} (hh : (hiAt s k L 0).head? = some h0)
    (hgt : bytesCompare (keyOf s h0) k = .gt) : ∀ id ∈ L, keyOf s id ≠ k := by
  intro id hid hkey
  have := hi_head_of_present hc hid hkey
  rw [hh] at this
  injection this with this
  subst this
  rw [hkey] at hgt
  rw [show bytesCompare k k = .eq from bytesCompare_self k] at hgt
  cases hgt

theorem hi_head_key_eq {s : SkipList} {L : List EId} (hc : Chains s L)
    {k : Key} {h0 : EId} (hh : (hiAt s k L 0).head? = some h0)
    (hle : ¬ bytesCompare (keyOf s h0) k = .gt) : keyOf s h0 = k := by
  have hnp : passb s k h0 = false :=
    hiAt_not_pass hc k 0 h0 (List.mem_of_mem_head? (Option.mem_def.mpr hh))
  exact bytesCompare_antisymm hle (passb_false_iff.mp hnp)

/-- Full specification of `Get` on a well-formed state: it completes, does
not change the state, and returns exactly the element with the search key
when one exists. -/
theorem Get_spec {s : SkipList} {L : List EId} (hc : Chains s L) (k : Key)
    (hml1 : 1 ≤ s.maxLevel) (hml : s.maxLevel ≤ DefaultMaxLevel) :
    ∃ r, Get s k = some (s, r) ∧
      ((∃ id, r = some id ∧ id ∈ L ∧ keyOf s id = k) ∨
        (r = none ∧ ∀ id ∈ L, keyOf s id ≠ k)) := by
  have hsearch := search_descent hc k hml s.maxLevel hml1 (Nat.le_refl _)
  rw [predAt_max hc k] at hsearch
  rw [Get]
  simp only [hsearch, optionBind_some]
  cases hhi : (hiAt s k L 0).head? with
  | none =>
    refine ⟨none, rfl, Or.inr ⟨rfl, ?_⟩⟩
    exact no_key_of_hi_empty hc (List.head?_eq_none_iff.mp hhi)
  | some h0 =>
    obtain ⟨e, he⟩ := heap_get_of_lt (hc.valid h0 (hi_head_mem hhi))
    simp only [he]
    by_cases hgt : bytesCompare e.key k = .gt
    · rw [if_neg (by simpa using hgt)]
      exact ⟨none, rfl, Or.inr ⟨rfl, no_key_of_hi_gt hc hhi (by rw [keyOf_eq he]; exact hgt)⟩⟩
    · rw [if_pos (by simpa using hgt)]
      refine ⟨some h0, rfl, Or.inl ⟨h0, rfl, hi_head_mem hhi, ?_⟩⟩
      exact hi_head_key_eq hc hhi (by rw [keyOf_eq he]; exact hgt)

/-! ## Level draw and slot facts -/

theorem randLevelAux_spec {pt : List ℚ} {r : ℚ} :
    ∀ rem level, level + rem ≤ pt.length →
      ∃ lvl, randLevelAux pt r level rem = some lvl ∧ level ≤ lvl ∧ lvl ≤ level + rem := by
  intro rem
  induction rem with
  | zero => intro level _; exact ⟨level, rfl, Nat.le_refl _, by omega⟩
  | succ rem ih =>
    intro level hle
    have hlt : level < pt.length := by omega
    have hp : pt[level]? = some pt[level] := List.getElem?_eq_getElem hlt
    rw [randLevelAux]
    simp only [hp]
    by_cases hr : r < pt[level]
    · obtain ⟨lvl, heq, h1, h2⟩ := ih (level + 1) (by omega)
      rw [if_pos hr]
      exact ⟨lvl, heq, by omega, by omega⟩
    · rw [if_neg hr]
      exact ⟨level, rfl, Nat.le_refl _, by omega⟩

/-- `randLevel` on a list whose table covers its `maxLevel`: it draws some
height in `[1, maxLevel]` and only advances the random stream. -/
theorem randLevel_spec {s : SkipList} (h1 : 1 ≤ s.maxLevel)
    (hpt : s.maxLevel ≤ s.probTable.length) :
    ∃ lvl, randLevel s = some (lvl, { s with randUsed := s.randUsed + 1 }) ∧
      1 ≤ lvl ∧ lvl ≤ s.maxLevel := by
  obtain ⟨lvl, heq, hl1, hl2⟩ :=
    @randLevelAux_spec s.probTable (s.randSource s.randUsed) (s.maxLevel - 1) 1
      (by omega)
  refine ⟨lvl, ?_, hl1, by omega⟩
  rw [randLevel, heq]
  rfl

theorem slotOk_nextAt {s : SkipList} {r : NodeRef} {i : Nat} (h : SlotOk s r i) :
    ∃ v, nodeNextAt s r i = some v := by
  cases r with
  | head =>
    refine ⟨s.headNext[i], ?_⟩
    show s.headNext[i]? = some s.headNext[i]
    exact List.getElem?_eq_getElem h
  | elem id =>
    obtain ⟨e, he, hlt⟩ := h
    refine ⟨e.next[i], ?_⟩
    show ((s.heap[id]?).map Element.next).bind (fun ns => ns[i]?) = some e.next[i]
    rw [he]
    show e.next[i]? = some e.next[i]
    exact List.getElem?_eq_getElem hlt

/-- The predecessor at a level is the sentinel or a passed-over element of
the level's chain. -/
theorem predAt_cases (s : SkipList) (k : Key) (L : List EId) (j : Nat) :
    predAt s k L j = .head ∨
      ∃ y ∈ L, predAt s k L j = .elem y ∧ passb s k y = true ∧ j < heightOf s y := by
  rcases endRef_eq_or_mem .head (loAt s k L j) with h | ⟨y, hy, h⟩
  · exact Or.inl h
  · right
    have hyL : y ∈ L := loAt_subset j y hy
    have hypass : passb s k y = true := loAt_pass j y hy
    have hyh : j < heightOf s y := by
      have := (List.takeWhile_sublist (passb s k)).subset hy
      exact heightb_iff.mp (List.mem_filter.mp this).2
    exact ⟨y, hyL, h, hypass, hyh⟩

/-- On a well-formed state, the predecessor slot at any level `j` below
the sentinel height exists. -/
theorem predAt_slotOk {s : SkipList} {L : List EId} (hc : Chains s L)
    (hhl : s.headNext.length = DefaultMaxLevel) (k : Key) {j : Nat}
    (hj : j < DefaultMaxLevel) : SlotOk s (predAt s k L j) j := by
  rcases predAt_cases s k L j with h | ⟨y, hyL, h, _, hyh⟩
  · rw [h]
    show j < s.headNext.length
    omega
  · rw [h]
    obtain ⟨e, he⟩ := heap_get_of_lt (hc.valid y hyL)
    exact ⟨e, he, by rw [← heightOf_eq he]; exact hyh⟩

/-- The predecessors are never the freshly allocated element. -/
theorem predAt_ne_fresh {s : SkipList} {L : List EId} (hc : Chains s L)
    (k : Key) (j : Nat) {newId : EId} (hnew : s.heap.length ≤ newId) :
    predAt s k L j ≠ .elem newId := by
  rcases predAt_cases s k L j with h | ⟨y, hyL, h, _, _⟩
  · rw [h]; intro hh; cases hh
  · rw [h]
    intro hh
    injection hh with hh
    have hvy : y < s.heap.length := hc.valid y hyL
    exact Nat.lt_irrefl newId (Nat.lt_of_lt_of_le (hh ▸ hvy) hnew)

/-! ## Effect of the splice and unlink loops -/

/-- Full effect of the splice loop of `Set`: processing levels `0 … lvl-1`
never panics, rewires exactly the predecessor slot and the fresh element's
slot at each of those levels, and keeps the state's shape. -/
theorem spliceLevels_spec {newId : EId} {prevs : List (Option NodeRef)}
    {pj : Nat → NodeRef} :
    ∀ {lvl : Nat} {t : SkipList},
      (∀ j, j < lvl → prevs[j]? = some (some (pj j))) →
      (∀ j, j < lvl → SlotOk t (pj j) j) →
      (∀ j, j < lvl → SlotOk t (.elem newId) j) →
      (∀ j, j < lvl → pj j ≠ .elem newId) →
      ∃ t', spliceLevels newId prevs lvl t = some t' ∧ SameShape t' t ∧
        ∀ x j, nodeNextAt t' x j =
          if j < lvl ∧ x = pj j then some (some newId)
          else if j < lvl ∧ x = .elem newId then nodeNextAt t (pj j) j
          else nodeNextAt t x j := by
  intro lvl
  induction lvl with
  | zero =>
    intro t _ _ _ _
    refine ⟨t, rfl, SameShape.refl t, fun x j => ?_⟩
    rw [if_neg (by omega), if_neg (by omega)]
  | succ lvl ih =>
    intro t hpr hok hokN hne
    obtain ⟨t1, heq1, hsh1, hchar1⟩ := ih (fun j hj => hpr j (by omega))
      (fun j hj => hok j (by omega)) (fun j hj => hokN j (by omega))
      (fun j hj => hne j (by omega))
    have hplvl := hpr lvl (by omega)
    obtain ⟨v0, hv0⟩ := slotOk_nextAt (hok lvl (by omega))
    have hv0t1 : nodeNextAt t1 (pj lvl) lvl = some v0 := by
      rw [hchar1 (pj lvl) lvl, if_neg (by omega), if_neg (by omega)]
      exact hv0
    obtain ⟨t2, heq2⟩ := writeNextAt_total v0 (hsh1.slotOk (hokN lvl (by omega)))
    obtain ⟨hsh2, hchar2⟩ := writeNextAt_some heq2
    obtain ⟨t3, heq3⟩ := writeNextAt_total (some newId)
      ((hsh2.trans hsh1).slotOk (hok lvl (by omega)))
    obtain ⟨hsh3, hchar3⟩ := writeNextAt_some heq3
    refine ⟨t3, ?_, (hsh3.trans hsh2).trans hsh1, ?_⟩
    · rw [spliceLevels]
      simp only [heq1, optionBind_some, hplvl, hv0t1, heq2, heq3]
    · intro x j
      rw [hchar3 x j, hchar2 x j, hchar1 x j]
      have hnelvl := hne lvl (by omega)
      by_cases hj : j = lvl
      · subst hj
        by_cases hx1 : x = pj j
        · rw [if_pos ⟨hx1, rfl⟩, if_pos ⟨by omega, hx1⟩]
        · rw [if_neg (fun hh => hx1 hh.1)]
          by_cases hx2 : x = .elem newId
          · rw [if_pos ⟨hx2, rfl⟩, if_neg (fun hh => hx1 hh.2),
              if_pos ⟨by omega, hx2⟩, hv0]
          · rw [if_neg (fun hh => hx2 hh.1), if_neg (by omega),
              if_neg (by omega), if_neg (fun hh => hx1 hh.2),
              if_neg (fun hh => hx2 hh.2)]
      · rw [if_neg (fun hh => hj hh.2), if_neg (fun hh => hj hh.2)]
        by_cases hjl : j < lvl
        · by_cases hx1 : x = pj j
          · rw [if_pos ⟨hjl, hx1⟩, if_pos ⟨by omega, hx1⟩]
          · rw [if_neg (fun hh => hx1 hh.2)]
            by_cases hx2 : x = .elem newId
            · rw [if_pos ⟨hjl, hx2⟩, if_neg (fun hh => hx1 hh.2),
                if_pos ⟨by omega, hx2⟩]
            · rw [if_neg (fun hh => hx2 hh.2), if_neg (fun hh => hx1 hh.2),
                if_neg (fun hh => hx2 hh.2)]
        · have hjs : ¬ j < lvl + 1 := by omega
          rw [if_neg (fun hh => hjl hh.1), if_neg (fun hh => hjl hh.1),
            if_neg (fun hh => hjs hh.1), if_neg (fun hh => hjs hh.1)]

/-- Full effect of the unlink loop of `Remove`: processing levels
`0 … h-1` never panics, repoints exactly the predecessor slot at each of
those levels at what the removed element points at, and keeps the state's
shape. -/
theorem unspliceLevels_spec {remId : EId} {prevs : List (Option NodeRef)}
    {pj : Nat → NodeRef} :
    ∀ {h : Nat} {t : SkipList},
      (∀ j, j < h → prevs[j]? = some (some (pj j))) →
      (∀ j, j < h → SlotOk t (pj j) j) →
      (∀ j, j < h → SlotOk t (.elem remId) j) →
      (∀ j, j < h → pj j ≠ .elem remId) →
      ∃ t', unspliceLevels remId prevs h t = some t' ∧ SameShape t' t ∧
        ∀ x j, nodeNextAt t' x j =
          if j < h ∧ x = pj j then nodeNextAt t (.elem remId) j
          else nodeNextAt t x j := by
  intro h
  induction h with
  | zero =>
    intro t _ _ _ _
    refine ⟨t, rfl, SameShape.refl t, fun x j => ?_⟩
    rw [if_neg (by omega)]
  | succ h ih =>
    intro t hpr hok hokR hne
    obtain ⟨t1, heq1, hsh1, hchar1⟩ := ih (fun j hj => hpr j (by omega))
      (fun j hj => hok j (by omega)) (fun j hj => hokR j (by omega))
      (fun j hj => hne j (by omega))
    have hph := hpr h (by omega)
    obtain ⟨v0, hv0⟩ := slotOk_nextAt (hokR h (by omega))
    have hv0t1 : nodeNextAt t1 (.elem remId) h = some v0 := by
      rw [hchar1 (.elem remId) h, if_neg (fun hh => absurd hh.1 (Nat.lt_irrefl h))]
      exact hv0
    obtain ⟨t2, heq2⟩ := writeNextAt_total v0 (hsh1.slotOk (hok h (by omega)))
    obtain ⟨hsh2, hchar2⟩ := writeNextAt_some heq2
    refine ⟨t2, ?_, hsh2.trans hsh1, ?_⟩
    · rw [unspliceLevels]
      simp only [heq1, optionBind_some, hph, hv0t1, heq2]
    · intro x j
      rw [hchar2 x j, hchar1 x j]
      by_cases hj : j = h
      · subst hj
        by_cases hx1 : x = pj j
        · rw [if_pos ⟨hx1, rfl⟩, if_pos ⟨by omega, hx1⟩, hv0]
        · rw [if_neg (fun hh => hx1 hh.1), if_neg (by omega),
            if_neg (fun hh => hx1 hh.2)]
      · rw [if_neg (fun hh => hj hh.2)]
        by_cases hjl : j < h
        · by_cases hx1 : x = pj j
          · rw [if_pos ⟨hjl, hx1⟩, if_pos ⟨by omega, hx1⟩]
          · rw [if_neg (fun hh => hx1 hh.2), if_neg (fun hh => hx1 hh.2)]
        · have hjs : ¬ j < h + 1 := by omega
          rw [if_neg (fun hh => hjl hh.1), if_neg (fun hh => hjs hh.1)]

/-! ## Support lemmas for the mutation specifications -/

/-- The forward pointer out of the level-`i` predecessor is the head of
the level-`i` tail (generalises `cand_spec`). -/
theorem pred_link {s : SkipList} {L : List EId} (hc : Chains s L) (k : Key)
    {i : Nat} (hi : i < DefaultMaxLevel) :
    nodeNextAt s (predAt s k L i) i = some ((hiAt s k L i).head?) := by
  have hch := hc.chains i hi
  rw [← List.takeWhile_append_dropWhile (passb s k) (chainAt s L i)] at hch
  exact hch.suffix.link

theorem loAt_eq_filter0 {s : SkipList} {L : List EId} (hc : Chains s L)
    (k : Key) (i : Nat) :
    loAt s k L i = (loAt s k L 0).filter (heightb s i) := by
  have h0 : loAt s k L 0 = L.filter (passb s k) := by
    rw [loAt_filter hc, chainAt_zero hc]
  rw [h0, loAt_filter hc, chainAt, List.filter_filter, List.filter_filter]
  exact List.filter_congr (fun id _ => Bool.and_comm _ _)

theorem hiAt_eq_filter0 {s : SkipList} {L : List EId} (hc : Chains s L)
    (k : Key) (i : Nat) :
    hiAt s k L i = (hiAt s k L 0).filter (heightb s i) := by
  have h0 : hiAt s k L 0 = L.filter (fun x => !(passb s k x)) := by
    rw [hiAt_filter hc, chainAt_zero hc]
  rw [h0, hiAt_filter hc, chainAt, List.filter_filter, List.filter_filter]
  exact List.filter_congr (fun id _ => Bool.and_comm _ _)

/-- When no element carries the search key, every element of the level-0
tail is strictly beyond it. -/
theorem hi_all_gt {s : SkipList} {L : List EId} (hc : Chains s L) {k : Key}
    (habs : ∀ id ∈ L, keyOf s id ≠ k) :
    ∀ b ∈ hiAt s k L 0, bytesCompare k (keyOf s b) = .lt := by
  intro b hb
  have hnp := passb_false_iff.mp (hiAt_not_pass hc k 0 b hb)
  have hbL : b ∈ L := hiAt_subset 0 b hb
  rcases bytesCompare_cases k (keyOf s b) with h | h | h
  · exact h
  · exact absurd (bytesCompare_eq_iff.mp h).symm (habs b hbL)
  · exact absurd h hnp

/-- At most one element carries any given key. -/
theorem key_unique {s : SkipList} {L : List EId} (hc : Chains s L) {k : Key}
    {a b : EId} (ha : a ∈ L) (hb : b ∈ L) (hka : keyOf s a = k)
    (hkb : keyOf s b = k) : a = b := by
  have h1 := hi_head_of_present hc ha hka
  have h2 := hi_head_of_present hc hb hkb
  rw [h1] at h2
  injection h2

theorem predAt_ne_of_not_pass {s : SkipList} {k : Key} {L : List EId} {id : EId}
    (hnp : passb s k id = false) (j : Nat) : predAt s k L j ≠ .elem id := by
  rcases predAt_cases s k L j with h | ⟨y, _, h, hyp, _⟩
  · rw [h]; intro hh; cases hh
  · rw [h]
    intro hh
    injection hh with hh
    rw [hh] at hyp
    rw [hyp] at hnp
    cases hnp

/-- Slot existence for a predecessor, in any state agreeing with `s` on
the sentinel width and the already-allocated heap entries. -/
theorem predAt_slotOk_gen {s t : SkipList} {L : List EId} (hc : Chains s L)
    (k : Key) {j : Nat} (hth : j < t.headNext.length)
    (htp : ∀ a, a < s.heap.length → t.heap[a]? = s.heap[a]?) :
    SlotOk t (predAt s k L j) j := by
  rcases predAt_cases s k L j with h | ⟨y, hyL, h, _, hyh⟩
  · rw [h]; exact hth
  · rw [h]
    have hv := hc.valid y hyL
    obtain ⟨e, he⟩ := heap_get_of_lt hv
    exact ⟨e, by rw [htp y hv]; exact he, by rw [← heightOf_eq he]; exact hyh⟩

/-- Transfer of a chain of allocated elements to a state that agrees on
the sentinel array and the allocated heap entries. -/
theorem chain_transfer {s t : SkipList} {i : Nat} {C : List EId}
    (h : IsChainFrom s i .head C) (hCv : ∀ a ∈ C, a < s.heap.length)
    (hth : t.headNext = s.headNext)
    (htp : ∀ a, a < s.heap.length → t.heap[a]? = s.heap[a]?) :
    IsChainFrom t i .head C := by
  refine h.congr ?_ ?_
  · show (some t.headNext).bind _ = (some s.headNext).bind _
    rw [hth]
  · intro a ha
    show ((t.heap[a]?).map Element.next).bind _ = ((s.heap[a]?).map Element.next).bind _
    rw [htp a (hCv a ha)]

theorem nodeNextAt_old {s t : SkipList} (hth : t.headNext = s.headNext)
    (htp : ∀ a, a < s.heap.length → t.heap[a]? = s.heap[a]?) {r : NodeRef}
    (hr : ∀ a, r = .elem a → a < s.heap.length) (i : Nat) :
    nodeNextAt t r i = nodeNextAt s r i := by
  cases r with
  | head =>
    show (some t.headNext).bind _ = (some s.headNext).bind _
    rw [hth]
  | elem a =>
    show ((t.heap[a]?).map Element.next).bind _ = ((s.heap[a]?).map Element.next).bind _
    rw [htp a (hr a rfl)]

theorem predAt_old {s : SkipList} {k : Key} {L : List EId} (j : Nat) {a : EId}
    (h : predAt s k L j = .elem a) (hc : Chains s L) : a < s.heap.length := by
  rcases predAt_cases s k L j with h' | ⟨y, hyL, h', _, _⟩
  · rw [h'] at h; cases h
  · rw [h'] at h
    injection h with h
    rw [← h]
    exact hc.valid y hyL

/-! ## `Set`: the update case -/

theorem value_set_facts {s s' : SkipList} {id : EId} {e : Element}
    (he : s.heap[id]? = some e) {v : Value} {P : List (Option NodeRef)}
    (hs' : s' = { s with
      prevNodesCache := P
      heap := s.heap.set id { next := e.next, key := e.key, value := v } }) :
    (∀ j, keyOf s' j = keyOf s j) ∧ (∀ j, heightOf s' j = heightOf s j) ∧
      (∀ x i, nodeNextAt s' x i = nodeNextAt s x i) ∧
      valueOf s' id = some v ∧ (∀ j, j ≠ id → valueOf s' j = valueOf s j) ∧
      s'.heap.length = s.heap.length := by
  subst hs'
  have hid : id < s.heap.length := (List.getElem?_eq_some.mp he).1
  refine ⟨?_, ?_, ?_, ?_, ?_, by simp⟩
  · intro j
    by_cases hj : j = id
    · subst hj
      simp [keyOf, List.getElem?_set, hid, he]
    · simp [keyOf, List.getElem?_set_ne (Ne.symm hj)]
  · intro j
    by_cases hj : j = id
    · subst hj
      simp [heightOf, List.getElem?_set, hid, he]
    · simp [heightOf, List.getElem?_set_ne (Ne.symm hj)]
  · intro x i
    cases x with
    | head => rfl
    | elem j =>
      by_cases hj : j = id
      · subst hj
        show ((s.heap.set j _)[j]?.map Element.next).bind _ =
          ((s.heap[j]?).map Element.next).bind fun ns => ns[i]?
        rw [List.getElem?_set_eq_of_lt _ hid, he]
        rfl
      · show ((s.heap.set id _)[j]?.map Element.next).bind _ =
          ((s.heap[j]?).map Element.next).bind fun ns => ns[i]?
        rw [List.getElem?_set_ne (Ne.symm hj)]
  · simp [valueOf, List.getElem?_set, hid]
  · intro j hj
    simp [valueOf, List.getElem?_set_ne (Ne.symm hj)]

/-- `Set` on a key already present: the existing element's value is
replaced in place, nothing else changes except the scratch buffer, and the
existing element is returned. -/
theorem Set_update_spec {s : SkipList} {L : List EId} (hc : Chains s L) {k : Key}
    (v : Value) {id : EId} (hid : id ∈ L) (hkey : keyOf s id = k)
    (hml1 : 1 ≤ s.maxLevel) (hml : s.maxLevel ≤ DefaultMaxLevel)
    (hcl : s.prevNodesCache.length = DefaultMaxLevel) :
    ∃ s' P e, s.heap[id]? = some e ∧
      Set s k v = some (s', id) ∧
      s' = { s with
        prevNodesCache := P
        heap := s.heap.set id { next := e.next, key := e.key, value := v } } ∧
      P.length = DefaultMaxLevel ∧ Chains s' L := by
  obtain ⟨P, hgpen, hPlen, hPlt, hPge⟩ := gpen_spec hc k hml1 hml hcl
  have hc1 : Chains { s with prevNodesCache := P } L := cache_set_chains hc P
  have hhi : (hiAt s k L 0).head? = some id := hi_head_of_present hc hid hkey
  have hp0 : P[0]? = some (some (predAt s k L 0)) := hPlt 0 (by omega)
  obtain ⟨e, he⟩ := heap_get_of_lt (hc.valid id hid)
  have hek : e.key = k := by rw [← keyOf_eq he]; exact hkey
  have hcond : ¬ bytesCompare e.key k = .gt := by
    rw [hek, bytesCompare_self]
    intro hh
    cases hh
  have hcand : nodeNextAt { s with prevNodesCache := P } (predAt s k L 0) 0 =
      some (some id) := by
    have := pred_link hc1 k (i := 0) (by rw [DefaultMaxLevel]; omega)
    rw [show predAt { s with prevNodesCache := P } k L 0 = predAt s k L 0 from rfl,
      show hiAt { s with prevNodesCache := P } k L 0 = hiAt s k L 0 from rfl, hhi] at this
    exact this
  refine ⟨{ s with
      prevNodesCache := P
      heap := s.heap.set id { next := e.next, key := e.key, value := v } },
    P, e, he, ?_, rfl, hPlen, ?_⟩
  · rw [Set]
    simp only [hgpen, optionBind_some, hp0, hcand, he, if_pos hcond]
    rfl
  · obtain ⟨hk1, hh1, hn1, _, _, hl1⟩ := value_set_facts he
      (v := v) (P := P) rfl
    exact Chains_congr hl1 hk1 hh1 hn1 rfl rfl hc

/-! ## `Set`: the insert case -/

theorem heap_append_facts {s s3 : SkipList} {el : Element}
    {P : List (Option NodeRef)}
    (hs3 : s3 = { s with
      prevNodesCache := P
      randUsed := s.randUsed + 1
      heap := s.heap ++ [el] }) :
    (∀ a, a < s.heap.length → s3.heap[a]? = s.heap[a]?) ∧
      s3.heap[s.heap.length]? = some el ∧
      (∀ a, a ≠ s.heap.length → keyOf s3 a = keyOf s a) ∧
      keyOf s3 s.heap.length = el.key ∧
      (∀ a, a ≠ s.heap.length → heightOf s3 a = heightOf s a) ∧
      heightOf s3 s.heap.length = el.next.length ∧
      (∀ a, a ≠ s.heap.length → valueOf s3 a = valueOf s a) ∧
      valueOf s3 s.heap.length = some el.value ∧
      s3.heap.length = s.heap.length + 1 := by
  subst hs3
  have hmem : ∀ a, a < s.heap.length → (s.heap ++ [el])[a]? = s.heap[a]? := by
    intro a ha
    rw [List.getElem?_append, if_pos ha]
  have hnew : (s.heap ++ [el])[s.heap.length]? = some el :=
    List.getElem?_concat_length _ _
  have hbig : ∀ a, s.heap.length < a → (s.heap ++ [el])[a]? = none ∧ s.heap[a]? = none := by
    intro a ha
    constructor
    · exact List.getElem?_eq_none (by simp; omega)
    · exact List.getElem?_eq_none (by omega)
  refine ⟨hmem, hnew, ?_, by simp [keyOf, hnew], ?_, by simp [heightOf, hnew],
    ?_, by simp [valueOf, hnew], by simp⟩
  · intro a ha
    rcases Nat.lt_or_ge a s.heap.length with h | h
    · simp [keyOf, hmem a h]
    · have hgt : s.heap.length < a := by omega
      simp [keyOf, (hbig a hgt).1, (hbig a hgt).2]
  · intro a ha
    rcases Nat.lt_or_ge a s.heap.length with h | h
    · simp [heightOf, hmem a h]
    · have hgt : s.heap.length < a := by omega
      simp [heightOf, (hbig a hgt).1, (hbig a hgt).2]
  · intro a ha
    rcases Nat.lt_or_ge a s.heap.length with h | h
    · simp [valueOf, hmem a h]
    · have hgt : s.heap.length < a := by omega
      simp [valueOf, (hbig a hgt).1, (hbig a hgt).2]

/-- `Set` on an absent key: a fresh element is allocated at the end of the
heap with some drawn height in `[1, maxLevel]`, spliced in right after the
per-level predecessors on every level below its height, and the count
grows by one. -/
theorem Set_insert_spec {s : SkipList} {L : List EId} (hc : Chains s L) {k : Key}
    (v : Value) (habs : ∀ id ∈ L, keyOf s id ≠ k)
    (hml1 : 1 ≤ s.maxLevel) (hml : s.maxLevel ≤ DefaultMaxLevel)
    (hcl : s.prevNodesCache.length = DefaultMaxLevel)
    (hhl : s.headNext.length = DefaultMaxLevel)
    (hpt : s.maxLevel ≤ s.probTable.length) :
    ∃ s', Set s k v = some (s', s.heap.length) ∧
      Chains s' (loAt s k L 0 ++ s.heap.length :: hiAt s k L 0) ∧
      keyOf s' s.heap.length = k ∧
      valueOf s' s.heap.length = some v ∧
      (∀ j, j ≠ s.heap.length → keyOf s' j = keyOf s j) ∧
      (∀ j, j ≠ s.heap.length → valueOf s' j = valueOf s j) ∧
      s'.maxLevel = s.maxLevel ∧ s'.length = s.length + 1 ∧
      s'.headNext.length = s.headNext.length ∧
      s'.probability = s.probability ∧ s'.probTable = s.probTable ∧
      s'.randSource = s.randSource ∧
      s'.prevNodesCache.length = DefaultMaxLevel ∧
      s'.heap.length = s.heap.length + 1 := by
  obtain ⟨P, hgpen, hPlen, hPlt, hPge⟩ := gpen_spec hc k hml1 hml hcl
  have hc1 : Chains { s with prevNodesCache := P } L := cache_set_chains hc P
  have hp0 : P[0]? = some (some (predAt s k L 0)) := hPlt 0 (by omega)
  have hcand : nodeNextAt { s with prevNodesCache := P } (predAt s k L 0) 0 =
      some ((hiAt s k L 0).head?) := pred_link hc1 k (by rw [DefaultMaxLevel]; omega)
  obtain ⟨lvl, hrand, hlvl1, hlvl2⟩ := randLevel_spec
    (s := { s with prevNodesCache := P }) hml1 hpt
  have hlvl2' : lvl ≤ s.maxLevel := hlvl2
  obtain ⟨F1, F2, K1, K2, H1, H2, V1, V2, LEN⟩ :=
    @heap_append_facts s
      { s with
        prevNodesCache := P
        randUsed := s.randUsed + 1
        heap := s.heap ++ [{ next := List.replicate lvl none, key := k, value := v }] }
      { next := List.replicate lvl none, key := k, value := v } P rfl
  have hpr : ∀ j, j < lvl → P[j]? = some (some (predAt s k L j)) :=
    fun j hj => hPlt j (by omega)
  have hok : ∀ j, j < lvl →
      SlotOk { s with
        prevNodesCache := P
        randUsed := s.randUsed + 1
        heap := s.heap ++ [{ next := List.replicate lvl none, key := k, value := v }] }
      (predAt s k L j) j := by
    intro j hj
    refine predAt_slotOk_gen hc k ?_ F1
    show j < s.headNext.length
    rw [hhl]
    omega
  have hokN : ∀ j, j < lvl →
      SlotOk { s with
        prevNodesCache := P
        randUsed := s.randUsed + 1
        heap := s.heap ++ [{ next := List.replicate lvl none, key := k, value := v }] }
      (.elem s.heap.length) j :=
    fun j hj => ⟨_, F2, by simpa using hj⟩
  have hne : ∀ j, j < lvl → predAt s k L j ≠ .elem s.heap.length :=
    fun j _ => predAt_ne_fresh hc k j (Nat.le_refl _)
  obtain ⟨sf, heqS, hshf, hcharf⟩ := @spliceLevels_spec s.heap.length P
    (fun j => predAt s k L j) lvl
    { s with
      prevNodesCache := P
      randUsed := s.randUsed + 1
      heap := s.heap ++ [{ next := List.replicate lvl none, key := k, value := v }] }
    hpr hok hokN hne
  have hins : insertNew { s with prevNodesCache := P } P k v =
      some ({ sf with length := sf.length + 1 }, s.heap.length) := by
    rw [insertNew]
    simp only [hrand, optionBind_some, heqS]
    rfl
  have hset : Set s k v = some ({ sf with length := sf.length + 1 }, s.heap.length) := by
    rw [Set]
    simp only [hgpen, optionBind_some, hp0, hcand]
    cases hhi : (hiAt s k L 0).head? with
    | none =>
      simp only [hhi]
      exact hins
    | some h0 =>
      obtain ⟨e, he⟩ := heap_get_of_lt (hc.valid h0 (hi_head_mem hhi))
      have hgt : bytesCompare e.key k = .gt := by
        rw [← keyOf_eq he]
        exact bytesCompare_lt_gt.mp
          (hi_all_gt hc habs h0 (List.mem_of_mem_head? (Option.mem_def.mpr hhi)))
      simp only [hhi, he]
      rw [if_neg (not_not_intro hgt)]
      exact hins
  -- facts about the final state
  have hkeyF : ∀ j, keyOf { sf with length := sf.length + 1 } j = keyOf sf j :=
    fun _ => rfl
  have hheiF : ∀ j, heightOf { sf with length := sf.length + 1 } j = heightOf sf j :=
    fun _ => rfl
  have hvalF : ∀ j, valueOf { sf with length := sf.length + 1 } j = valueOf sf j :=
    fun _ => rfl
  have hnnF : ∀ x i, nodeNextAt { sf with length := sf.length + 1 } x i =
      nodeNextAt sf x i := fun x i => nodeNextAt_congr rfl rfl x i
  have hkey' : ∀ j, j ≠ s.heap.length →
      keyOf { sf with length := sf.length + 1 } j = keyOf s j :=
    fun j hj => (hkeyF j).trans ((hshf.key_eq j).trans (K1 j hj))
  have hkeyN : keyOf { sf with length := sf.length + 1 } s.heap.length = k :=
    (hkeyF _).trans ((hshf.key_eq _).trans K2)
  have hhei' : ∀ j, j ≠ s.heap.length →
      heightOf { sf with length := sf.length + 1 } j = heightOf s j :=
    fun j hj => (hheiF j).trans ((hshf.height_eq j).trans (H1 j hj))
  have hheiN : heightOf { sf with length := sf.length + 1 } s.heap.length = lvl :=
    (hheiF _).trans ((hshf.height_eq _).trans (by simpa using H2))
  have hLsplit : loAt s k L 0 ++ hiAt s k L 0 = L := by
    rw [loAt, hiAt, List.takeWhile_append_dropWhile, chainAt_zero hc]
  have hmemlo : ∀ a ∈ loAt s k L 0, a < s.heap.length :=
    fun a ha => hc.valid a (loAt_subset 0 a ha)
  have hmemhi : ∀ a ∈ hiAt s k L 0, a < s.heap.length :=
    fun a ha => hc.valid a (hiAt_subset 0 a ha)
  have hchainAt : ∀ i,
      chainAt { sf with length := sf.length + 1 }
        (loAt s k L 0 ++ s.heap.length :: hiAt s k L 0) i =
      loAt s k L i ++ (if i < lvl then s.heap.length :: hiAt s k L i else hiAt s k L i) := by
    intro i
    rw [chainAt, List.filter_append, List.filter_cons]
    have hfl : (loAt s k L 0).filter (heightb { sf with length := sf.length + 1 } i) =
        loAt s k L i := by
      have hcg : ∀ a ∈ loAt s k L 0,
          heightb { sf with length := sf.length + 1 } i a = heightb s i a := by
        intro a ha
        have hlt := hmemlo a ha
        have hane : a ≠ s.heap.length := Nat.ne_of_lt hlt
        simp only [heightb, hhei' a hane]
      rw [List.filter_congr hcg, ← loAt_eq_filter0 hc k i]
    have hfh : (hiAt s k L 0).filter (heightb { sf with length := sf.length + 1 } i) =
        hiAt s k L i := by
      have hcg : ∀ a ∈ hiAt s k L 0,
          heightb { sf with length := sf.length + 1 } i a = heightb s i a := by
        intro a ha
        have hlt := hmemhi a ha
        have hane : a ≠ s.heap.length := Nat.ne_of_lt hlt
        simp only [heightb, hhei' a hane]
      rw [List.filter_congr hcg, ← hiAt_eq_filter0 hc k i]
    rw [hfl, hfh]
    by_cases hil : i < lvl
    · rw [if_pos (by rw [heightb_iff, hheiN]; exact hil), if_pos hil]
    · rw [if_neg (by rw [heightb_iff, hheiN]; exact hil), if_neg hil]
  refine ⟨{ sf with length := sf.length + 1 }, hset, ?_, hkeyN,
    (hvalF _).trans ((hshf.value_eq _).trans V2),
    hkey',
    (fun j hj => (hvalF j).trans ((hshf.value_eq j).trans (V1 j hj))),
    hshf.max_eq,
    (by show sf.length + 1 = s.length + 1; rw [hshf.len_eq]),
    hshf.head_len,
    hshf.prob_eq, hshf.table_eq, hshf.rand_eq,
    (by show sf.prevNodesCache.length = DefaultMaxLevel; rw [hshf.cache_eq]; exact hPlen),
    (by show sf.heap.length = s.heap.length + 1; rw [hshf.heap_len]; exact LEN)⟩
  -- the chain invariant for the new level-0 order
  have hnodup : List.Nodup L := L_nodup hc
  refine ⟨?_, ?_, ?_, ?_, ?_, ?_⟩
  · -- valid
    intro id hid
    have hlen' : ({ sf with length := sf.length + 1 } : SkipList).heap.length =
        s.heap.length + 1 := by
      show sf.heap.length = s.heap.length + 1
      rw [hshf.heap_len]; exact LEN
    rw [hlen']
    rcases List.mem_append.mp hid with h | h
    · exact Nat.lt_succ_of_lt (hmemlo id h)
    · rcases List.mem_cons.mp h with h' | h'
      · rw [h']
        exact Nat.lt_succ_self _
      · exact Nat.lt_succ_of_lt (hmemhi id h')
  · -- sorted
    have hlosub : (loAt s k L 0).Sublist L := by
      rw [loAt, chainAt_zero hc]
      exact List.takeWhile_sublist _
    have hhisub : (hiAt s k L 0).Sublist L := by
      rw [hiAt, chainAt_zero hc]
      exact List.dropWhile_sublist _
    have hkeq : ∀ a, a < s.heap.length →
        keyOf { sf with length := sf.length + 1 } a = keyOf s a :=
      fun a hlt => hkey' a (Nat.ne_of_lt hlt)
    have hloKlt : ∀ a ∈ loAt s k L 0, bytesCompare (keyOf s a) k = .lt :=
      fun a ha => bytesCompare_lt_gt.mpr (passb_iff.mp (loAt_pass 0 a ha))
    have hhiKlt : ∀ b ∈ hiAt s k L 0, bytesCompare k (keyOf s b) = .lt :=
      hi_all_gt hc habs
    rw [List.pairwise_append]
    refine ⟨?_, ?_, ?_⟩
    · refine List.Pairwise.imp_of_mem ?_ (List.Pairwise.sublist hlosub hc.sorted)
      intro a b ha hb hab
      rw [hkeq a (hmemlo a ha), hkeq b (hmemlo b hb)]
      exact hab
    · rw [List.pairwise_cons]
      constructor
      · intro b hb
        rw [hkeyN, hkeq b (hmemhi b hb)]
        exact hhiKlt b hb
      · refine List.Pairwise.imp_of_mem ?_ (List.Pairwise.sublist hhisub hc.sorted)
        intro a b ha hb hab
        rw [hkeq a (hmemhi a ha), hkeq b (hmemhi b hb)]
        exact hab
    · intro a ha b hb
      rw [hkeq a (hmemlo a ha)]
      rcases List.mem_cons.mp hb with hb' | hb'
      · rw [hb', hkeyN]
        exact hloKlt a ha
      · rw [hkeq b (hmemhi b hb')]
        exact bytesCompare_lt_trans (hloKlt a ha) (hhiKlt b hb')
  · -- height_pos
    intro id hid
    rcases List.mem_append.mp hid with h | h
    · rw [hhei' id (Nat.ne_of_lt (hmemlo id h))]
      exact hc.height_pos id (loAt_subset 0 id h)
    · rcases List.mem_cons.mp h with h' | h'
      · rw [h', hheiN]
        exact hlvl1
      · rw [hhei' id (Nat.ne_of_lt (hmemhi id h'))]
        exact hc.height_pos id (hiAt_subset 0 id h')
  · -- height_le
    intro id hid
    refine le_of_le_of_eq ?_ (hshf.max_eq.symm : s.maxLevel = _)
    rcases List.mem_append.mp hid with h | h
    · rw [hhei' id (Nat.ne_of_lt (hmemlo id h))]
      exact hc.height_le id (loAt_subset 0 id h)
    · rcases List.mem_cons.mp h with h' | h'
      · rw [h', hheiN]
        exact hlvl2'
      · rw [hhei' id (Nat.ne_of_lt (hmemhi id h'))]
        exact hc.height_le id (hiAt_subset 0 id h')
  · -- chains
    intro i hi18
    have hsplit_i : loAt s k L i ++ hiAt s k L i = chainAt s L i :=
      List.takeWhile_append_dropWhile _ _
    have hmemchain : ∀ a ∈ chainAt s L i, a < s.heap.length :=
      fun a ha => hc.valid a (chainAt_subset i a ha)
    rw [hchainAt i]
    by_cases hil : i < lvl
    · rw [if_pos hil]
      have hchain3 : IsChainFrom
          { s with
            prevNodesCache := P
            randUsed := s.randUsed + 1
            heap := s.heap ++ [{ next := List.replicate lvl none, key := k, value := v }] }
          i .head (loAt s k L i ++ hiAt s k L i) := by
        rw [hsplit_i]
        exact chain_transfer
          (t := { s with
            prevNodesCache := P
            randUsed := s.randUsed + 1
            heap := s.heap ++ [{ next := List.replicate lvl none, key := k, value := v }] })
          (hc.chains i hi18) hmemchain rfl F1
      have hpredold : ∀ a, predAt s k L i = .elem a → a < s.heap.length :=
        fun a ha => predAt_old i ha hc
      have hlink3 : nodeNextAt
          { s with
            prevNodesCache := P
            randUsed := s.randUsed + 1
            heap := s.heap ++ [{ next := List.replicate lvl none, key := k, value := v }] }
          (predAt s k L i) i = some ((hiAt s k L i).head?) := by
        rw [nodeNextAt_old (s := s)
          (t := { s with
            prevNodesCache := P
            randUsed := s.randUsed + 1
            heap := s.heap ++ [{ next := List.replicate lvl none, key := k, value := v }] })
          rfl F1 hpredold i]
        exact pred_link hc k hi18
      have hcharI : ∀ x, nodeNextAt sf x i =
          if x = predAt s k L i then some (some s.heap.length)
          else if x = .elem s.heap.length then some ((hiAt s k L i).head?)
          else nodeNextAt
            { s with
              prevNodesCache := P
              randUsed := s.randUsed + 1
              heap := s.heap ++ [{ next := List.replicate lvl none, key := k, value := v }] }
            x i := by
        intro x
        rw [hcharf x i]
        by_cases hx1 : x = predAt s k L i
        · rw [if_pos ⟨hil, hx1⟩, if_pos hx1]
        · rw [if_neg (fun hh => hx1 hh.2), if_neg hx1]
          by_cases hx2 : x = .elem s.heap.length
          · rw [if_pos ⟨hil, hx2⟩, if_pos hx2, hlink3]
          · rw [if_neg (fun hh => hx2 hh.2), if_neg hx2]
      have hBnew : ∀ b ∈ hiAt s k L i, b ≠ s.heap.length := fun b hb =>
        Nat.ne_of_lt (hc.valid b (chainAt_subset i b ((List.dropWhile_sublist _).subset hb)))
      have hBpred : ∀ b ∈ hiAt s k L i, NodeRef.elem b ≠ predAt s k L i :=
        fun b hb hEq => predAt_ne_of_not_pass (hiAt_not_pass hc k i b hb) i hEq.symm
      have hAnew : ∀ a ∈ loAt s k L i, a ≠ s.heap.length := fun a ha =>
        Nat.ne_of_lt (hc.valid a (chainAt_subset i a ((List.takeWhile_sublist _).subset ha)))
      have hins2 := @chain_insert _ sf i s.heap.length (predAt s k L i)
        (hiAt s k L i) hcharI hBnew hBpred .head (loAt s k L i) hchain3 rfl hAnew
        (fun hh => by cases hh)
      exact hins2.congr (hnnF .head i) (fun a _ => hnnF (.elem a) i)
    · rw [if_neg hil, hsplit_i]
      have htrans : ∀ x, (∀ a, x = .elem a → a < s.heap.length) →
          nodeNextAt { sf with length := sf.length + 1 } x i = nodeNextAt s x i := by
        intro x hx
        rw [hnnF x i, hcharf x i, if_neg (fun hh => hil hh.1),
          if_neg (fun hh => hil hh.1), nodeNextAt_old (s := s)
            (t := { s with
              prevNodesCache := P
              randUsed := s.randUsed + 1
              heap := s.heap ++ [{ next := List.replicate lvl none, key := k, value := v }] })
            rfl F1 hx i]
      refine (hc.chains i hi18).congr (htrans .head (fun a ha => by cases ha)) ?_
      intro a ha
      refine htrans (.elem a) (fun b hb => ?_)
      injection hb with hb
      rw [← hb]
      exact hmemchain a ha
  · -- len
    have hlenL : (loAt s k L 0).length + (hiAt s k L 0).length = L.length := by
      have h := congrArg List.length hLsplit
      rw [List.length_append] at h
      exact h
    show sf.length + 1 = _
    rw [hshf.len_eq]
    show s.length + 1 = _
    rw [hc.len]
    rw [List.length_append, List.length_cons, ← hlenL]
    push_cast
    ring

/-! ## `Remove` -/

/-- `Remove` on an absent key: no panic, `nil` returned, and only the
scratch buffer is written. -/
theorem Remove_absent_spec {s : SkipList} {L : List EId} (hc : Chains s L) {k : Key}
    (habs : ∀ id ∈ L, keyOf s id ≠ k)
    (hml1 : 1 ≤ s.maxLevel) (hml : s.maxLevel ≤ DefaultMaxLevel)
    (hcl : s.prevNodesCache.length = DefaultMaxLevel) :
    ∃ P, Remove s k = some ({ s with prevNodesCache := P }, none) ∧
      P.length = DefaultMaxLevel ∧ Chains { s with prevNodesCache := P } L := by
  obtain ⟨P, hgpen, hPlen, hPlt, hPge⟩ := gpen_spec hc k hml1 hml hcl
  have hc1 : Chains { s with prevNodesCache := P } L := cache_set_chains hc P
  have hp0 : P[0]? = some (some (predAt s k L 0)) := hPlt 0 (by omega)
  have hcand : nodeNextAt { s with prevNodesCache := P } (predAt s k L 0) 0 =
      some ((hiAt s k L 0).head?) := pred_link hc1 k (by rw [DefaultMaxLevel]; omega)
  refine ⟨P, ?_, hPlen, hc1⟩
  rw [Remove]
  simp only [hgpen, optionBind_some, hp0, hcand]
  cases hhi : (hiAt s k L 0).head? with
  | none =>
    simp only [hhi]
    rfl
  | some h0 =>
    obtain ⟨e, he⟩ := heap_get_of_lt (hc.valid h0 (hi_head_mem hhi))
    have hgt : bytesCompare e.key k = .gt := by
      rw [← keyOf_eq he]
      exact bytesCompare_lt_gt.mp
        (hi_all_gt hc habs h0 (List.mem_of_mem_head? (Option.mem_def.mpr hhi)))
    simp only [hhi, he]
    rw [if_neg (not_not_intro hgt)]
    rfl

/-- `Remove` on a present key: the unique element with that key is
unlinked from every chain level it was on, the count drops by one, and
the removed element is returned.  Nothing else in the heap changes: every
key, value and height is untouched. -/
theorem Remove_found_spec {s : SkipList} {L : List EId} (hc : Chains s L) {k : Key}
    {id : EId} (hid : id ∈ L) (hkey : keyOf s id = k)
    (hml1 : 1 ≤ s.maxLevel) (hml : s.maxLevel ≤ DefaultMaxLevel)
    (hcl : s.prevNodesCache.length = DefaultMaxLevel)
    (hhl : s.headNext.length = DefaultMaxLevel) :
    ∃ s' rest, hiAt s k L 0 = id :: rest ∧
      Remove s k = some (s', some id) ∧
      Chains s' (loAt s k L 0 ++ rest) ∧
      id ∉ loAt s k L 0 ++ rest ∧
      (∀ j, keyOf s' j = keyOf s j) ∧ (∀ j, valueOf s' j = valueOf s j) ∧
      (∀ j, heightOf s' j = heightOf s j) ∧
      s'.maxLevel = s.maxLevel ∧ s'.length = s.length - 1 ∧
      s'.headNext.length = s.headNext.length ∧ s'.heap.length = s.heap.length ∧
      s'.probability = s.probability ∧ s'.probTable = s.probTable ∧
      s'.randSource = s.randSource ∧ s'.randUsed = s.randUsed ∧
      s'.prevNodesCache.length = DefaultMaxLevel := by
  obtain ⟨P, hgpen, hPlen, hPlt, hPge⟩ := gpen_spec hc k hml1 hml hcl
  have hc1 : Chains { s with prevNodesCache := P } L := cache_set_chains hc P
  have hp0 : P[0]? = some (some (predAt s k L 0)) := hPlt 0 (by omega)
  have hhi : (hiAt s k L 0).head? = some id := hi_head_of_present hc hid hkey
  obtain ⟨rest, hhiT⟩ : ∃ rest, hiAt s k L 0 = id :: rest := by
    cases hhiT : hiAt s k L 0 with
    | nil => rw [hhiT] at hhi; cases hhi
    | cons h0 t =>
      rw [hhiT] at hhi
      injection hhi with hhi
      exact ⟨t, by rw [hhi]⟩
  have hcand : nodeNextAt { s with prevNodesCache := P } (predAt s k L 0) 0 =
      some (some id) := by
    have h := pred_link hc1 k (i := 0) (by rw [DefaultMaxLevel]; omega)
    rw [show hiAt { s with prevNodesCache := P } k L 0 = hiAt s k L 0 from rfl, hhi] at h
    exact h
  obtain ⟨e, he⟩ := heap_get_of_lt (hc.valid id hid)
  have hek : e.key = k := by rw [← keyOf_eq he]; exact hkey
  have hcond : ¬ bytesCompare e.key k = .gt := by
    rw [hek, bytesCompare_self]
    intro hh
    cases hh
  have hpassid : passb s k id = false := by
    rw [passb_false_iff, hkey, bytesCompare_self]
    intro hh
    cases hh
  have hh_eq : heightOf s id = e.next.length := heightOf_eq he
  have hh_le : e.next.length ≤ s.maxLevel := by
    rw [← hh_eq]
    exact hc.height_le id hid
  -- the unlink loop
  have hpr : ∀ j, j < e.next.length → P[j]? = some (some (predAt s k L j)) :=
    fun j hj => hPlt j (by omega)
  have hok : ∀ j, j < e.next.length →
      SlotOk { s with prevNodesCache := P } (predAt s k L j) j := by
    intro j hj
    refine predAt_slotOk_gen hc k ?_ (fun a _ => rfl)
    show j < s.headNext.length
    rw [hhl]
    have : DefaultMaxLevel = 18 := rfl
    omega
  have hokR : ∀ j, j < e.next.length →
      SlotOk { s with prevNodesCache := P } (.elem id) j :=
    fun j hj => ⟨e, he, hj⟩
  have hne : ∀ j, j < e.next.length → predAt s k L j ≠ .elem id :=
    fun j _ => predAt_ne_of_not_pass hpassid j
  obtain ⟨t2, heqU, hshU, hcharU⟩ := @unspliceLevels_spec id P
    (fun j => predAt s k L j) e.next.length { s with prevNodesCache := P }
    hpr hok hokR hne
  have hset : Remove s k = some ({ t2 with length := t2.length - 1 }, some id) := by
    rw [Remove]
    simp only [hgpen, optionBind_some, hp0, hcand, he]
    rw [if_pos hcond]
    simp only [heqU, optionBind_some]
    rfl
  -- pointwise preservation
  have hkeyT : ∀ j, keyOf { t2 with length := t2.length - 1 } j = keyOf s j :=
    fun j => (hshU.key_eq j).trans rfl
  have hvalT : ∀ j, valueOf { t2 with length := t2.length - 1 } j = valueOf s j :=
    fun j => (hshU.value_eq j).trans rfl
  have hheiT : ∀ j, heightOf { t2 with length := t2.length - 1 } j = heightOf s j :=
    fun j => (hshU.height_eq j).trans rfl
  have hnnT : ∀ x i, nodeNextAt { t2 with length := t2.length - 1 } x i =
      nodeNextAt t2 x i := fun x i => nodeNextAt_congr rfl rfl x i
  have hLsplit : loAt s k L 0 ++ hiAt s k L 0 = L := by
    rw [loAt, hiAt, List.takeWhile_append_dropWhile, chainAt_zero hc]
  have hL2sub : (loAt s k L 0 ++ rest).Sublist L := by
    have h : (loAt s k L 0 ++ rest).Sublist (loAt s k L 0 ++ (id :: rest)) :=
      (List.sublist_cons_self id rest).append_left _
    rw [← hhiT] at h
    rw [hLsplit] at h
    exact h
  have hnotin : id ∉ loAt s k L 0 ++ rest := by
    intro hmem
    rcases List.mem_append.mp hmem with h | h
    · rw [loAt_pass 0 id h] at hpassid
      cases hpassid
    · have hnd : (id :: rest).Nodup := by
        rw [← hhiT, hiAt, chainAt_zero hc]
        exact (List.dropWhile_sublist _).nodup (L_nodup hc)
      exact (List.nodup_cons.mp hnd).1 h
  have hchainAt2 : ∀ i, chainAt { t2 with length := t2.length - 1 }
      (loAt s k L 0 ++ rest) i = loAt s k L i ++ rest.filter (heightb s i) := by
    intro i
    rw [chainAt, List.filter_append]
    have hbcong : ∀ q : List EId,
        q.filter (heightb { t2 with length := t2.length - 1 } i) =
          q.filter (heightb s i) :=
      fun q => List.filter_congr (fun a _ => by simp only [heightb, hheiT a])
    rw [hbcong, hbcong, ← loAt_eq_filter0 hc k i]
  have hhiAt_i : ∀ i, hiAt s k L i = (id :: rest).filter (heightb s i) := by
    intro i
    rw [hiAt_eq_filter0 hc k i, hhiT]
  refine ⟨{ t2 with length := t2.length - 1 }, rest, hhiT, hset, ?_, hnotin,
    hkeyT, hvalT, hheiT, hshU.max_eq,
    (by show t2.length - 1 = s.length - 1; rw [hshU.len_eq]),
    hshU.head_len, hshU.heap_len, hshU.prob_eq, hshU.table_eq, hshU.rand_eq,
    hshU.used_eq,
    (by show t2.prevNodesCache.length = DefaultMaxLevel; rw [hshU.cache_eq]; exact hPlen)⟩
  refine ⟨?_, ?_, ?_, ?_, ?_, ?_⟩
  · -- valid
    intro a ha
    have hlen2 : ({ t2 with length := t2.length - 1 } : SkipList).heap.length =
        s.heap.length := hshU.heap_len
    rw [hlen2]
    exact hc.valid a (hL2sub.subset ha)
  · -- sorted
    refine List.Pairwise.imp ?_ (List.Pairwise.sublist hL2sub hc.sorted)
    intro a b hab
    rw [hkeyT a, hkeyT b]
    exact hab
  · -- height_pos
    intro a ha
    rw [hheiT a]
    exact hc.height_pos a (hL2sub.subset ha)
  · -- height_le
    intro a ha
    refine le_of_le_of_eq ?_ (hshU.max_eq.symm : s.maxLevel = _)
    rw [hheiT a]
    exact hc.height_le a (hL2sub.subset ha)
  · -- chains
    intro i hi18
    rw [hchainAt2 i]
    have hmemchain : ∀ a ∈ chainAt s L i, a < s.heap.length :=
      fun a ha => hc.valid a (chainAt_subset i a ha)
    have hsplit_i : loAt s k L i ++ hiAt s k L i = chainAt s L i :=
      List.takeWhile_append_dropWhile _ _
    by_cases hih : i < e.next.length
    · -- the element participated in level i: it is unlinked here
      have hbid : heightb s i id = true := by
        rw [heightb_iff, hh_eq]
        exact hih
      have hhiF : hiAt s k L i = id :: rest.filter (heightb s i) := by
        rw [hhiAt_i i, List.filter_cons, if_pos hbid]
      have hchain_s : IsChainFrom s i .head
          (loAt s k L i ++ id :: rest.filter (heightb s i)) := by
        rw [← hhiF, hsplit_i]
        exact hc.chains i hi18
      have hlinkid : nodeNextAt s (.elem id) i =
          some ((rest.filter (heightb s i)).head?) := by
        have h1 : IsChainFrom s i .head
            ((loAt s k L i ++ [id]) ++ rest.filter (heightb s i)) := by
          simpa using hchain_s
        have h2 := h1.suffix
        rw [show endRef .head (loAt s k L i ++ [id]) = .elem id by
          simp [endRef, List.getLast?_concat]] at h2
        exact h2.link
      have hcharI : ∀ x, nodeNextAt t2 x i =
          if x = predAt s k L i then some ((rest.filter (heightb s i)).head?)
          else nodeNextAt s x i := by
        intro x
        rw [hcharU x i]
        by_cases hx1 : x = predAt s k L i
        · rw [if_pos ⟨hih, hx1⟩, if_pos hx1,
            @nodeNextAt_congr s { s with prevNodesCache := P } rfl rfl (.elem id) i,
            hlinkid]
        · rw [if_neg (fun hh => hx1 hh.2), if_neg hx1,
            @nodeNextAt_congr s { s with prevNodesCache := P } rfl rfl x i]
      have hBpred : ∀ b ∈ rest.filter (heightb s i), NodeRef.elem b ≠ predAt s k L i := by
        intro b hb
        have hbmem : b ∈ hiAt s k L i := by
          rw [hhiF]
          exact List.mem_cons_of_mem _ hb
        exact fun hEq => predAt_ne_of_not_pass (hiAt_not_pass hc k i b hbmem) i hEq.symm
      have hrem := @chain_remove s t2 i id (predAt s k L i)
        (rest.filter (heightb s i)) hcharI hBpred .head (loAt s k L i) hchain_s rfl
      exact hrem.congr (hnnT .head i) (fun a _ => hnnT (.elem a) i)
    · -- the element was not on level i: the level is untouched
      have hbid : heightb s i id = false := by
        rw [heightb]
        simp only [decide_eq_false_iff_not]
        rw [hh_eq]
        omega
      have hhiF : hiAt s k L i = rest.filter (heightb s i) := by
        rw [hhiAt_i i, List.filter_cons, if_neg (by rw [hbid]; intro hh; cases hh)]
      rw [← hhiF, hsplit_i]
      have htrans : ∀ x, nodeNextAt { t2 with length := t2.length - 1 } x i =
          nodeNextAt s x i := by
        intro x
        rw [hnnT x i, hcharU x i, if_neg (fun hh => hih hh.1),
          @nodeNextAt_congr s { s with prevNodesCache := P } rfl rfl x i]
      exact (hc.chains i hi18).congr (htrans .head) (fun a _ => htrans (.elem a))
  · -- len
    have hlenL : (loAt s k L 0).length + (rest.length + 1) = L.length := by
      have h := congrArg List.length hLsplit
      rw [List.length_append, hhiT] at h
      simpa using h
    show t2.length - 1 = _
    rw [hshU.len_eq]
    show s.length - 1 = _
    rw [hc.len, List.length_append, ← hlenL]
    push_cast
    ring

/-! ## Panics of over-tall lists, and the reachability invariant -/

/-- When the configured `maxLevel` exceeds the sentinel's forward array
(the situation `NewWithMaxLevel` creates for `maxLevel > 18`), the very
first top-level access of the predecessor search indexes out of range. -/
theorem gpen_panic {s : SkipList} (k : Key) (h : s.headNext.length < s.maxLevel) :
    getPrevElementNodes s k = none := by
  obtain ⟨c, hc⟩ : ∃ c, s.maxLevel = c + 1 := by
    cases hml : s.maxLevel with
    | zero => rw [hml] at h; omega
    | succ c => exact ⟨c, rfl⟩
  have hnone : nodeNextAt s .head c = none := by
    show s.headNext[c]? = none
    exact List.getElem?_eq_none (by omega)
  have hwalk : walkLevel s k c (s.heap.length + 1) .head = none := by
    rw [walkLevel, hnone]
  rw [getPrevElementNodes, hc, gpenLevels, hwalk]
  rfl

theorem Set_panic {s : SkipList} (k : Key) (v : Value)
    (h : s.headNext.length < s.maxLevel) : Set s k v = none := by
  rw [Set, gpen_panic k h]
  rfl

theorem Remove_panic {s : SkipList} (k : Key)
    (h : s.headNext.length < s.maxLevel) : Remove s k = none := by
  rw [Remove, gpen_panic k h]
  rfl

theorem Get_panic {s : SkipList} (k : Key)
    (h : s.headNext.length < s.maxLevel) : Get s k = none := by
  obtain ⟨c, hc⟩ : ∃ c, s.maxLevel = c + 1 := by
    cases hml : s.maxLevel with
    | zero => rw [hml] at h; omega
    | succ c => exact ⟨c, rfl⟩
  have hnone : nodeNextAt s .head c = none := by
    show s.headNext[c]? = none
    exact List.getElem?_eq_none (by omega)
  have hwalk : walkLevel s k c (s.heap.length + 1) .head = none := by
    rw [walkLevel, hnone]
  rw [Get, hc, searchLevels, hwalk]
  rfl

theorem probabilityTable_length (p : ℚ) (n : Nat) :
    (probabilityTable p n).length = n := by
  simp [probabilityTable]

/-- Chains in the empty freshly constructed list. -/
theorem chains_nil {s : SkipList} (hhead : s.headNext = List.replicate DefaultMaxLevel none)
    (hlen : s.length = 0) : Chains s [] := by
  refine ⟨by simp, by simp, by simp, by simp, ?_, by rw [hlen]; rfl⟩
  intro i hi
  have : chainAt s [] i = [] := rfl
  rw [this]
  refine .nil ?_
  show s.headNext[i]? = some none
  rw [hhead, List.getElem?_replicate, if_pos hi]

/-- `SetProbability` keeps the structural invariant. -/
theorem setProbability_chains {s : SkipList} {L : List EId} (hc : Chains s L)
    (p : ℚ) : Chains (SetProbability s p) L :=
  @Chains_congr s (SetProbability s p) L rfl (fun _ => rfl) (fun _ => rfl)
    (fun r i => nodeNextAt_congr rfl rfl r i) rfl rfl hc

/-- Every reachable state satisfies the invariant `WF`. -/
theorem reachable_wf : ∀ {s : SkipList}, Reachable s → WF s := by
  intro s h
  induction h with
  | base p rs n s hnew =>
    rw [NewWithMaxLevel] at hnew
    by_cases hn : n < 1 ∨ n > 64
    · rw [if_pos hn] at hnew; cases hnew
    · rw [if_neg hn] at hnew
      injection hnew with hnew
      subst hnew
      push_neg at hn
      refine ⟨by exact hn.1, by simp, by simp, ?_, ⟨[], chains_nil rfl rfl⟩⟩
      intro hle
      rw [probabilityTable_length]
      exact hle
  | set hr hstep ih =>
    rename_i s1 s2 k v id
    by_cases hbroken : s1.headNext.length < s1.maxLevel
    · rw [Set_panic k v hbroken] at hstep; cases hstep
    · have hml : s1.maxLevel ≤ DefaultMaxLevel := by
        rw [← ih.head_len]; omega
      obtain ⟨L, hc⟩ := ih.ex_chains
      by_cases hpres : ∃ j ∈ L, keyOf s1 j = k
      · obtain ⟨id0, hid0, hkey0⟩ := hpres
        obtain ⟨s'', P, e, he, hset2, hseq, hPlen, hch⟩ :=
          Set_update_spec hc v hid0 hkey0 ih.ml_pos hml ih.cache_len
        rw [hstep] at hset2
        injection hset2 with hset2
        have hs2 : s2 = s'' := congrArg Prod.fst hset2
        subst hs2
        subst hseq
        exact ⟨ih.ml_pos, ih.head_len, hPlen, ih.pt_len, ⟨L, hch⟩⟩
      · push_neg at hpres
        obtain ⟨s'', hset2, hch, _, _, _, _, hmax, _, hhead, _, htab, _, hcache, _⟩ :=
          Set_insert_spec hc v hpres ih.ml_pos hml ih.cache_len ih.head_len
            (ih.pt_len hml)
        rw [hstep] at hset2
        injection hset2 with hset2
        have hs2 : s2 = s'' := congrArg Prod.fst hset2
        subst hs2
        refine ⟨?_, ?_, hcache, ?_, ⟨_, hch⟩⟩
        · rw [hmax]; exact ih.ml_pos
        · rw [hhead]; exact ih.head_len
        · rw [hmax, htab]
          exact ih.pt_len
  | remove hr hstep ih =>
    rename_i s1 s2 k r
    by_cases hbroken : s1.headNext.length < s1.maxLevel
    · rw [Remove_panic k hbroken] at hstep; cases hstep
    · have hml : s1.maxLevel ≤ DefaultMaxLevel := by
        rw [← ih.head_len]; omega
      obtain ⟨L, hc⟩ := ih.ex_chains
      by_cases hpres : ∃ j ∈ L, keyOf s1 j = k
      · obtain ⟨id0, hid0, hkey0⟩ := hpres
        obtain ⟨s'', rest, hhiT, hrem2, hch, _, _, _, _, hmax, _, hhead, _, _, htab,
          _, _, hcache⟩ :=
          Remove_found_spec hc hid0 hkey0 ih.ml_pos hml ih.cache_len ih.head_len
        rw [hstep] at hrem2
        injection hrem2 with hrem2
        have hs2 : s2 = s'' := congrArg Prod.fst hrem2
        subst hs2
        refine ⟨?_, ?_, hcache, ?_, ⟨_, hch⟩⟩
        · rw [hmax]; exact ih.ml_pos
        · rw [hhead]; exact ih.head_len
        · rw [hmax, htab]
          exact ih.pt_len
      · push_neg at hpres
        obtain ⟨P, hrem2, hPlen, hch⟩ :=
          Remove_absent_spec hc hpres ih.ml_pos hml ih.cache_len
        rw [hstep] at hrem2
        injection hrem2 with hrem2
        have hs2 : s2 = { s1 with prevNodesCache := P } := congrArg Prod.fst hrem2
        subst hs2
        exact ⟨ih.ml_pos, ih.head_len, hPlen, ih.pt_len, ⟨L, hch⟩⟩
  | setProb p hr ih =>
    obtain ⟨L, hc⟩ := ih.ex_chains
    refine ⟨ih.ml_pos, ih.head_len, ih.cache_len, ?_, ⟨L, setProbability_chains hc p⟩⟩
    intro hle
    show _ ≤ (probabilityTable p _).length
    rw [probabilityTable_length]
    exact Nat.le_refl _

theorem optionBind_none {α β : Type} (f : α → Option β) :
    (do let x ← (none : Option α); f x) = (none : Option β) := rfl

/-- A reachable state whose `maxLevel` exceeds the sentinel's 18 slots has
an empty heap: every `Set` on such a list panics before allocating, so
nothing is ever inserted. -/
theorem reachable_tall_imp_empty :
    ∀ {s : SkipList}, Reachable s → DefaultMaxLevel < s.maxLevel → s.heap = [] := by
  intro s h
  induction h with
  | base p rs n s hnew =>
    intro _
    rw [NewWithMaxLevel] at hnew
    by_cases hn : n < 1 ∨ n > 64
    · rw [if_pos hn] at hnew; cases hnew
    · rw [if_neg hn] at hnew
      injection hnew with hnew
      subst hnew
      rfl
  | set hr hstep ih =>
    rename_i s1 s2 k v id
    intro htall
    by_cases hbroken : s1.headNext.length < s1.maxLevel
    · rw [Set_panic k v hbroken] at hstep; cases hstep
    · have hwf := reachable_wf hr
      have hml : s1.maxLevel ≤ DefaultMaxLevel := by
        rw [← hwf.head_len]; omega
      obtain ⟨L, hc⟩ := hwf.ex_chains
      by_cases hpres : ∃ j ∈ L, keyOf s1 j = k
      · obtain ⟨id0, hid0, hkey0⟩ := hpres
        obtain ⟨s'', P, e, he, hset2, hseq, hPlen, hch⟩ :=
          Set_update_spec hc v hid0 hkey0 hwf.ml_pos hml hwf.cache_len
        rw [hstep] at hset2
        injection hset2 with hset2
        have hs2 : s2 = s'' := congrArg Prod.fst hset2
        subst hs2
        subst hseq
        exact absurd htall (Nat.not_lt.mpr hml)
      · push_neg at hpres
        obtain ⟨s'', hset2, hch, _, _, _, _, hmax, _, _, _, _, _, _, _⟩ :=
          Set_insert_spec hc v hpres hwf.ml_pos hml hwf.cache_len hwf.head_len
            (hwf.pt_len hml)
        rw [hstep] at hset2
        injection hset2 with hset2
        have hs2 : s2 = s'' := congrArg Prod.fst hset2
        subst hs2
        rw [hmax] at htall
        exact absurd htall (Nat.not_lt.mpr hml)
  | remove hr hstep ih =>
    rename_i s1 s2 k r
    intro htall
    by_cases hbroken : s1.headNext.length < s1.maxLevel
    · rw [Remove_panic k hbroken] at hstep; cases hstep
    · have hwf := reachable_wf hr
      have hml : s1.maxLevel ≤ DefaultMaxLevel := by
        rw [← hwf.head_len]; omega
      exact absurd htall (Nat.not_lt.mpr (by
        have : s2.maxLevel = s1.maxLevel := by
          obtain ⟨L, hc⟩ := hwf.ex_chains
          by_cases hpres : ∃ j ∈ L, keyOf s1 j = k
          · obtain ⟨id0, hid0, hkey0⟩ := hpres
            obtain ⟨s'', rest, hhiT, hrem2, _, _, _, _, _, hmax, _, _, _, _, _,
              _, _, _⟩ :=
              Remove_found_spec hc hid0 hkey0 hwf.ml_pos hml hwf.cache_len
                hwf.head_len
            rw [hstep] at hrem2
            injection hrem2 with hrem2
            have hs2 : s2 = s'' := congrArg Prod.fst hrem2
            rw [hs2, hmax]
          · push_neg at hpres
            obtain ⟨P, hrem2, _, _⟩ :=
              Remove_absent_spec hc hpres hwf.ml_pos hml hwf.cache_len
            rw [hstep] at hrem2
            injection hrem2 with hrem2
            have hs2 : s2 = { s1 with prevNodesCache := P } :=
              congrArg Prod.fst hrem2
            rw [hs2]
        rw [this]
        exact hml))
  | setProb p hr ih =>
    intro htall
    exact ih htall

/-! ## The claims under check -/

/-- C1: the spec says every `NewWithMaxLevel(n)` with `1 ≤ n ≤ 64` yields a
list on which `Set` always completes.  The code disagrees: for every
`n ∈ [19, 64]` construction succeeds (the guard admits the whole range
`[1, 64]`) but the sentinel's forward array is sized with
`DefaultMaxLevel = 18` instead of `n`, so the very first predecessor walk of
every `Set` indexes `next[maxLevel-1]` out of range and panics. -/
theorem C1_set_panics_above_18 (n : Nat) (h1 : 19 ≤ n) (h2 : n ≤ 64)
    (p : ℚ) (rs : Nat → ℚ) :
    ∃ s, NewWithMaxLevel p rs n = some s ∧ s.maxLevel = n ∧
      ∀ k v, Set s k v = none := by
  rw [NewWithMaxLevel, if_neg (by omega)]
  refine ⟨_, rfl, rfl, fun k v => Set_panic k v ?_⟩
  show (List.replicate DefaultMaxLevel (none : Option EId)).length < n
  rw [List.length_replicate, DefaultMaxLevel]
  omega

theorem C1_set_panics_above_18_witness :
    19 ≤ 19 ∧ 19 ≤ 64 ∧
      (∃ s, NewWithMaxLevel (1/2) rhalf 19 = some s ∧ s.maxLevel = 19 ∧
        ∀ k v, Set s k v = none) :=
  ⟨by decide, by decide, C1_set_panics_above_18 19 (by decide) (by decide) (1/2) rhalf⟩

/-- C2: the spec says `NewWithMaxLevel(n)` sizes the sentinel's forward
array, the predecessor scratch buffer and the probability table to `n`.
The code sizes all three with the constant `DefaultMaxLevel = 18`
regardless of `n`, so for every admitted `n ≠ 18` all three claimed sizes
are wrong. -/
theorem C2_new_sizes_are_18 (n : Nat) (h1 : 1 ≤ n) (h2 : n ≤ 64)
    (p : ℚ) (rs : Nat → ℚ) :
    ∃ s, NewWithMaxLevel p rs n = some s ∧ s.maxLevel = n ∧
      s.headNext.length = DefaultMaxLevel ∧
      s.prevNodesCache.length = DefaultMaxLevel ∧
      s.probTable.length = DefaultMaxLevel ∧
      (n ≠ DefaultMaxLevel → ¬ (s.headNext.length = n ∧
        s.prevNodesCache.length = n ∧ s.probTable.length = n)) := by
  rw [NewWithMaxLevel, if_neg (by omega)]
  refine ⟨_, rfl, rfl, by simp, by simp, by simp [probabilityTable], ?_⟩
  intro hne hh
  apply hne
  have hh1 := hh.1
  simp at hh1
  rw [← hh1, DefaultMaxLevel]

/-- C4 counterexample: on the reachable state `NewWithMaxLevel(19)` both
`Set` and `Remove` panic, so no round trip completes at all. -/
theorem C4_round_trip_cex :
    Reachable sample19 ∧ Set sample19 [0] 5 = none ∧ Remove sample19 [0] = none :=
  ⟨Reachable.base (1/2) rhalf 19 sample19 rfl, Set_panic [0] 5 (by decide),
    Remove_panic [0] (by decide)⟩

/-- C4 (amended: restricted to lists whose `maxLevel` fits the sentinel's
18 slots; on lists built with a larger `maxLevel` `Set` and `Remove` panic
instead of completing): `Set k v` then `Get k` finds the written element
with value `v`, and `Remove k` then `Get k` reports absence. -/
theorem C4_round_trip {s : SkipList} (hr : Reachable s)
    (hsm : s.maxLevel ≤ DefaultMaxLevel) (k : Key) (v : Value) :
    (∃ s' id, Set s k v = some (s', id) ∧
      Get s' k = some (s', some id) ∧ valueOf s' id = some v) ∧
    (∃ t r, Remove s k = some (t, r) ∧ Get t k = some (t, none)) := by
  have hwf := reachable_wf hr
  obtain ⟨L, hc⟩ := hwf.ex_chains
  constructor
  · by_cases hpres : ∃ j ∈ L, keyOf s j = k
    · obtain ⟨id0, hid0, hkey0⟩ := hpres
      obtain ⟨s', P, e, he, hset, hseq, hPlen, hch'⟩ :=
        Set_update_spec hc v hid0 hkey0 hwf.ml_pos hsm hwf.cache_len
      obtain ⟨hKeys, hHeights, hNext, hVal, hVal', hHeap⟩ := value_set_facts he hseq
      have hml1' : 1 ≤ s'.maxLevel := by rw [hseq]; exact hwf.ml_pos
      have hsm' : s'.maxLevel ≤ DefaultMaxLevel := by rw [hseq]; exact hsm
      obtain ⟨r, hget, hdisj⟩ := Get_spec hch' k hml1' hsm'
      have hkey' : keyOf s' id0 = k := by rw [hKeys id0]; exact hkey0
      have hrid : r = some id0 := by
        cases hdisj with
        | inl h =>
          obtain ⟨id', hr', hid', hk'⟩ := h
          rw [hr']
          exact congrArg some (key_unique hch' hid' hid0 hk' hkey')
        | inr h => exact absurd hkey' (h.2 id0 hid0)
      exact ⟨s', id0, hset, by rw [← hrid]; exact hget, hVal⟩
    · push_neg at hpres
      obtain ⟨s', hset, hch', hkeyN, hvalN, _, _, hmax, _, _, _, _, _, _, _⟩ :=
        Set_insert_spec hc v hpres hwf.ml_pos hsm hwf.cache_len hwf.head_len
          (hwf.pt_len hsm)
      obtain ⟨r, hget, hdisj⟩ := Get_spec hch' k (by rw [hmax]; exact hwf.ml_pos)
        (by rw [hmax]; exact hsm)
      have hmem : s.heap.length ∈ loAt s k L 0 ++ s.heap.length :: hiAt s k L 0 :=
        List.mem_append.mpr (Or.inr (List.mem_cons_self _ _))
      have hrid : r = some s.heap.length := by
        cases hdisj with
        | inl h =>
          obtain ⟨id', hr', hid', hk'⟩ := h
          rw [hr']
          exact congrArg some (key_unique hch' hid' hmem hk' hkeyN)
        | inr h => exact absurd hkeyN (h.2 _ hmem)
      exact ⟨s', s.heap.length, hset, by rw [← hrid]; exact hget, hvalN⟩
  · by_cases hpres : ∃ j ∈ L, keyOf s j = k
    · obtain ⟨id0, hid0, hkey0⟩ := hpres
      obtain ⟨t, rest, hhiT, hrem, hch', hnotin, hKeys, hVals, hHeights, hmax,
        hlen, hhl, hheap, hprob, htab, hrand, hused, hcache⟩ :=
        Remove_found_spec hc hid0 hkey0 hwf.ml_pos hsm hwf.cache_len hwf.head_len
      have habs' : ∀ j ∈ loAt s k L 0 ++ rest, keyOf t j ≠ k := by
        intro j hj hkj
        have hjL : j ∈ L := by
          rcases List.mem_append.mp hj with hjlo | hjrest
          · exact loAt_subset 0 j hjlo
          · exact hiAt_subset 0 j (by rw [hhiT]; exact List.mem_cons_of_mem _ hjrest)
        have hj0 : j = id0 :=
          key_unique hc hjL hid0 (by rw [← hKeys j]; exact hkj) hkey0
        rw [hj0] at hj
        exact hnotin hj
      obtain ⟨r', hget, hdisj⟩ := Get_spec hch' k (by rw [hmax]; exact hwf.ml_pos)
        (by rw [hmax]; exact hsm)
      have hrn : r' = none := by
        cases hdisj with
        | inl h =>
          obtain ⟨id', hr', hid', hk'⟩ := h
          exact absurd hk' (habs' id' hid')
        | inr h => exact h.1
      exact ⟨t, some id0, hrem, by rw [← hrn]; exact hget⟩
    · push_neg at hpres
      obtain ⟨P, hrem, hPlen, hch'⟩ :=
        Remove_absent_spec hc hpres hwf.ml_pos hsm hwf.cache_len
      have habs' : ∀ j ∈ L, keyOf { s with prevNodesCache := P } j ≠ k := hpres
      obtain ⟨r', hget, hdisj⟩ := Get_spec hch' k (by exact hwf.ml_pos) (by exact hsm)
      have hrn : r' = none := by
        cases hdisj with
        | inl h =>
          obtain ⟨id', hr', hid', hk'⟩ := h
          exact absurd hk' (habs' id' hid')
        | inr h => exact h.1
      exact ⟨_, none, hrem, by rw [← hrn]; exact hget⟩

theorem C4_round_trip_witness :
    Reachable sample18 ∧ sample18.maxLevel ≤ DefaultMaxLevel ∧
      ((∃ s' id, Set sample18 [2] 9 = some (s', id) ∧
        Get s' [2] = some (s', some id) ∧ valueOf s' id = some 9) ∧
       (∃ t r, Remove sample18 [2] = some (t, r) ∧ Get t [2] = some (t, none))) :=
  ⟨Reachable.base (1/2) rhalf 18 sample18 rfl, by decide,
    C4_round_trip (Reachable.base (1/2) rhalf 18 sample18 rfl) (by decide) [2] 9⟩

/-- C9 counterexample: on the reachable state `NewWithMaxLevel(19)`,
`Remove` panics instead of returning the removed element or the absence
indicator. -/
theorem C9_remove_cex : Reachable sample19 ∧ Remove sample19 [1] = none :=
  ⟨Reachable.base (1/2) rhalf 19 sample19 rfl, Remove_panic [1] (by decide)⟩

/-- C9 (amended: restricted to lists whose `maxLevel` fits the sentinel's
18 slots; on lists built with a larger `maxLevel` every `Remove` panics):
`Remove k` on a present key unlinks that element from every level and
decrements the count; on an absent key it returns the absence indicator
with heap, sentinel array and count untouched. -/
theorem C9_remove_spec {s : SkipList} (hr : Reachable s)
    (hsm : s.maxLevel ≤ DefaultMaxLevel) (k : Key) :
    ∃ L, IsChainFrom s 0 .head L ∧
      ((∀ id ∈ L, keyOf s id ≠ k) →
        ∃ t, Remove s k = some (t, none) ∧ t.heap = s.heap ∧
          t.headNext = s.headNext ∧ t.length = s.length ∧
          t.maxLevel = s.maxLevel) ∧
      (∀ id ∈ L, keyOf s id = k →
        ∃ t L', Remove s k = some (t, some id) ∧
          IsChainFrom t 0 .head L' ∧ id ∉ L' ∧
          (∀ j ∈ L', j ∈ L) ∧
          (∀ j, keyOf t j = keyOf s j) ∧ (∀ j, valueOf t j = valueOf s j) ∧
          (∀ i, i < DefaultMaxLevel → ∃ C, IsChainFrom t i .head C ∧ id ∉ C) ∧
          t.length = s.length - 1) := by
  have hwf := reachable_wf hr
  obtain ⟨L, hc⟩ := hwf.ex_chains
  have hch0 := hc.chains 0 (by rw [DefaultMaxLevel]; omega)
  rw [chainAt_zero hc] at hch0
  refine ⟨L, hch0, ?_, ?_⟩
  · intro habs
    obtain ⟨P, hrem, hPlen, hch'⟩ :=
      Remove_absent_spec hc habs hwf.ml_pos hsm hwf.cache_len
    exact ⟨_, hrem, rfl, rfl, rfl, rfl⟩
  · intro id hid hkey
    obtain ⟨t, rest, hhiT, hrem, hch', hnotin, hKeys, hVals, hHeights, hmax,
      hlen, hhl, hheap, hprob, htab, hrand, hused, hcache⟩ :=
      Remove_found_spec hc hid hkey hwf.ml_pos hsm hwf.cache_len hwf.head_len
    have hch0' := hch'.chains 0 (by rw [DefaultMaxLevel]; omega)
    rw [chainAt_zero hch'] at hch0'
    refine ⟨t, loAt s k L 0 ++ rest, hrem, hch0', hnotin, ?_, hKeys, hVals, ?_,
      hlen⟩
    · intro j hj
      rcases List.mem_append.mp hj with hjlo | hjrest
      · exact loAt_subset 0 j hjlo
      · exact hiAt_subset 0 j (by rw [hhiT]; exact List.mem_cons_of_mem _ hjrest)
    · intro i hi
      refine ⟨chainAt t (loAt s k L 0 ++ rest) i, hch'.chains i hi, ?_⟩
      intro hmem
      exact hnotin (chainAt_subset i id hmem)

theorem C9_remove_spec_witness :
    Reachable sample18 ∧ sample18.maxLevel ≤ DefaultMaxLevel ∧
      (∃ L, IsChainFrom sample18 0 .head L ∧
        ((∀ id ∈ L, keyOf sample18 id ≠ [0]) →
          ∃ t, Remove sample18 [0] = some (t, none) ∧ t.heap = sample18.heap ∧
            t.headNext = sample18.headNext ∧ t.length = sample18.length ∧
            t.maxLevel = sample18.maxLevel) ∧
        (∀ id ∈ L, keyOf sample18 id = [0] →
          ∃ t L', Remove sample18 [0] = some (t, some id) ∧
            IsChainFrom t 0 .head L' ∧ id ∉ L' ∧
            (∀ j ∈ L', j ∈ L) ∧
            (∀ j, keyOf t j = keyOf sample18 j) ∧
            (∀ j, valueOf t j = valueOf sample18 j) ∧
            (∀ i, i < DefaultMaxLevel →
              ∃ C, IsChainFrom t i .head C ∧ id ∉ C) ∧
            t.length = sample18.length - 1)) :=
  ⟨Reachable.base (1/2) rhalf 18 sample18 rfl, by decide,
    C9_remove_spec (Reachable.base (1/2) rhalf 18 sample18 rfl) (by decide) [0]⟩

/-- C3 counterexample: `NewWithMaxLevel(19)` yields a reachable state on
which `Get` panics (the sentinel has only 18 forward slots but the search
starts at level `maxLevel - 1 = 18`), so `Get` neither returns a matching
element nor the absence indicator. -/
theorem C3_get_cex : Reachable sample19 ∧ Get sample19 [0] = none :=
  ⟨Reachable.base (1/2) rhalf 19 sample19 rfl, Get_panic [0] (by decide)⟩

/-- C3 (amended: restricted to lists whose `maxLevel` fits the sentinel's
18 slots; on lists built with a larger `maxLevel` every `Get` panics):
`Get k` returns an element of the level-0 chain iff that element's key is
exactly `k`, and the absence indicator otherwise — it never returns an
element with a different key. -/
theorem C3_get_exact {s : SkipList} (hr : Reachable s)
    (hsm : s.maxLevel ≤ DefaultMaxLevel) (k : Key) :
    ∃ L r, IsChainFrom s 0 .head L ∧ Get s k = some (s, r) ∧
      ((∃ id, r = some id ∧ id ∈ L ∧ keyOf s id = k) ∨
        (r = none ∧ ∀ id ∈ L, keyOf s id ≠ k)) := by
  have hwf := reachable_wf hr
  obtain ⟨L, hc⟩ := hwf.ex_chains
  obtain ⟨r, hget, hdisj⟩ := Get_spec hc k hwf.ml_pos hsm
  have hch0 := hc.chains 0 (by rw [DefaultMaxLevel]; omega)
  rw [chainAt_zero hc] at hch0
  exact ⟨L, r, hch0, hget, hdisj⟩

theorem C3_get_exact_witness :
    Reachable sample18 ∧ sample18.maxLevel ≤ DefaultMaxLevel ∧
      (∃ L r, IsChainFrom sample18 0 .head L ∧
        Get sample18 [7] = some (sample18, r) ∧
        ((∃ id, r = some id ∧ id ∈ L ∧ keyOf sample18 id = [7]) ∨
          (r = none ∧ ∀ id ∈ L, keyOf sample18 id ≠ [7]))) :=
  ⟨Reachable.base (1/2) rhalf 18 sample18 rfl, by decide,
    C3_get_exact (Reachable.base (1/2) rhalf 18 sample18 rfl) (by decide) [7]⟩

/-- C5: on a reachable list whose level-0 chain holds an element `id` with
key `k`, `Set k v2` replaces that element's value in place and returns the
same element: the chain, the element's key, height and forward array, every
other heap cell, the sentinel array and the count are all unchanged, and
`id` stays the unique element with key `k`. -/
theorem C5_update_in_place {s : SkipList} (hr : Reachable s) {L : List EId}
    (hch : IsChainFrom s 0 .head L) {id : EId} {k : Key} (hid : id ∈ L)
    (hkey : keyOf s id = k) (v2 : Value) :
    ∃ s', Set s k v2 = some (s', id) ∧
      IsChainFrom s' 0 .head L ∧
      keyOf s' id = k ∧
      valueOf s' id = some v2 ∧
      (∀ j ∈ L, keyOf s' j = k → j = id) ∧
      heightOf s' id = heightOf s id ∧
      (s'.heap[id]?).map Element.next = (s.heap[id]?).map Element.next ∧
      (∀ j, j ≠ id → s'.heap[j]? = s.heap[j]?) ∧
      s'.headNext = s.headNext ∧
      s'.length = s.length := by
  have hwf := reachable_wf hr
  obtain ⟨L0, hc⟩ := hwf.ex_chains
  have hch0 := hc.chains 0 (by rw [DefaultMaxLevel]; omega)
  rw [chainAt_zero hc] at hch0
  have hLL : L = L0 := IsChainFrom.unique hch hch0
  subst hLL
  have hsm : s.maxLevel ≤ DefaultMaxLevel := by
    by_contra htall
    have hemp := reachable_tall_imp_empty hr (Nat.lt_of_not_le htall)
    have hv := hc.valid id hid
    rw [hemp] at hv
    simp at hv
  obtain ⟨s', P, e, he, hset, hseq, hPlen, hch'⟩ :=
    Set_update_spec hc v2 hid hkey hwf.ml_pos hsm hwf.cache_len
  obtain ⟨hKeys, hHeights, hNext, hVal, hVal', hHeap⟩ := value_set_facts he hseq
  have hidlt : id < s.heap.length := (List.getElem?_eq_some.mp he).1
  have hch0' := hch'.chains 0 (by rw [DefaultMaxLevel]; omega)
  rw [chainAt_zero hch'] at hch0'
  refine ⟨s', hset, hch0', ?_, hVal, ?_, hHeights id, ?_, ?_, ?_, ?_⟩
  · rw [hKeys id]; exact hkey
  · exact fun j hj hkj => key_unique hch' hj hid hkj (by rw [hKeys id]; exact hkey)
  · subst hseq
    show ((s.heap.set id { next := e.next, key := e.key, value := v2 })[id]?).map
        Element.next = (s.heap[id]?).map Element.next
    rw [List.getElem?_set_eq_of_lt _ hidlt, he]
    rfl
  · subst hseq
    intro j hj
    show (s.heap.set id { next := e.next, key := e.key, value := v2 })[j]? = s.heap[j]?
    rw [List.getElem?_set_ne (Ne.symm hj)]
  · subst hseq; rfl
  · subst hseq; rfl

theorem C5_update_in_place_witness :
    Reachable sampleSet1 ∧ IsChainFrom sampleSet1 0 .head [0] ∧ 0 ∈ [0] ∧
      keyOf sampleSet1 0 = [3] ∧
      (∃ s', Set sampleSet1 [3] 99 = some (s', 0) ∧
        IsChainFrom s' 0 .head [0] ∧
        keyOf s' 0 = [3] ∧
        valueOf s' 0 = some 99 ∧
        (∀ j ∈ [0], keyOf s' j = [3] → j = 0) ∧
        heightOf s' 0 = heightOf sampleSet1 0 ∧
        (s'.heap[0]?).map Element.next = (sampleSet1.heap[0]?).map Element.next ∧
        (∀ j, j ≠ 0 → s'.heap[j]? = sampleSet1.heap[j]?) ∧
        s'.headNext = sampleSet1.headNext ∧
        s'.length = sampleSet1.length) := by
  have hr : Reachable sampleSet1 :=
    Reachable.set (Reachable.base (1/2) rhalf 1 sample1 rfl)
      (rfl : Set sample1 [3] 7 = some (sampleSet1, 0))
  have hch : IsChainFrom sampleSet1 0 .head [0] := .cons rfl (.nil rfl)
  exact ⟨hr, hch, List.mem_singleton.mpr rfl, rfl,
    C5_update_in_place hr hch (List.mem_singleton.mpr rfl) rfl 99⟩

/-- C6: on every reachable state, walking the level-0 chain from the
sentinel visits elements whose keys are strictly ascending under byte-wise
comparison, so in particular the keys are pairwise distinct. -/
theorem C6_sorted_nodup {s : SkipList} (hr : Reachable s) :
    ∃ L, IsChainFrom s 0 .head L ∧
      List.Pairwise (fun a b => bytesCompare (keyOf s a) (keyOf s b) = .lt) L ∧
      (L.map (keyOf s)).Nodup := by
  obtain ⟨L, hc⟩ := (reachable_wf hr).ex_chains
  have hch0 := hc.chains 0 (by rw [DefaultMaxLevel]; omega)
  rw [chainAt_zero hc] at hch0
  refine ⟨L, hch0, hc.sorted, ?_⟩
  have hne : List.Pairwise (fun a b => keyOf s a ≠ keyOf s b) L :=
    hc.sorted.imp fun h heq => by
      rw [heq, bytesCompare_self] at h
      exact Ordering.noConfusion h
  exact List.pairwise_map.mpr hne

theorem C6_sorted_nodup_witness :
    Reachable sample18 ∧
      (∃ L, IsChainFrom sample18 0 .head L ∧
        List.Pairwise
          (fun a b => bytesCompare (keyOf sample18 a) (keyOf sample18 b) = .lt) L ∧
        (L.map (keyOf sample18)).Nodup) :=
  ⟨Reachable.base (1/2) rhalf 18 sample18 rfl,
    C6_sorted_nodup (Reachable.base (1/2) rhalf 18 sample18 rfl)⟩

/-- C7: on every reachable state the `Length` field equals the number of
elements on the level-0 chain from the sentinel. -/
theorem C7_count_matches_chain {s : SkipList} (hr : Reachable s) :
    ∃ L, IsChainFrom s 0 .head L ∧ s.length = (L.length : Int) := by
  obtain ⟨L, hc⟩ := (reachable_wf hr).ex_chains
  have hch0 := hc.chains 0 (by rw [DefaultMaxLevel]; omega)
  rw [chainAt_zero hc] at hch0
  exact ⟨L, hch0, hc.len⟩

theorem C7_count_matches_chain_witness :
    Reachable sample18 ∧
      (∃ L, IsChainFrom sample18 0 .head L ∧ sample18.length = (L.length : Int)) :=
  ⟨Reachable.base (1/2) rhalf 18 sample18 rfl,
    C7_count_matches_chain (Reachable.base (1/2) rhalf 18 sample18 rfl)⟩

/-- C8: on every reachable state, for every level `i ≥ 1` the level-`i`
chain is a subsequence of the level-`(i-1)` chain, is strictly ascending by
key, and holds exactly the level-0 elements whose height exceeds `i`. -/
theorem C8_level_chains {s : SkipList} (hr : Reachable s) :
    ∃ L, IsChainFrom s 0 .head L ∧
      ∀ i, 1 ≤ i → i < DefaultMaxLevel →
        ∃ C C', IsChainFrom s i .head C ∧ IsChainFrom s (i - 1) .head C' ∧
          C.Sublist C' ∧
          List.Pairwise (fun a b => bytesCompare (keyOf s a) (keyOf s b) = .lt) C ∧
          (∀ id, id ∈ C ↔ id ∈ L ∧ i < heightOf s id) := by
  obtain ⟨L, hc⟩ := (reachable_wf hr).ex_chains
  have hch0 := hc.chains 0 (by rw [DefaultMaxLevel]; omega)
  rw [chainAt_zero hc] at hch0
  refine ⟨L, hch0, fun i h1 h2 => ⟨chainAt s L i, chainAt s L (i - 1),
    hc.chains i h2, hc.chains (i - 1) (by omega), ?_, chainAt_sorted hc i, ?_⟩⟩
  · have hfil : chainAt s L i = (chainAt s L (i - 1)).filter (heightb s i) := by
      rw [chainAt, chainAt, List.filter_filter]
      refine List.filter_congr fun a ha => ?_
      cases hh : heightb s i a with
      | false => simp [hh]
      | true =>
        have hlow : heightb s (i - 1) a = true :=
          heightb_iff.mpr (by have := heightb_iff.mp hh; omega)
        simp [hh, hlow]
    rw [hfil]
    exact List.filter_sublist _
  · intro id
    simp [chainAt, List.mem_filter, heightb]

theorem C8_level_chains_witness :
    Reachable sample18 ∧
      (∃ L, IsChainFrom sample18 0 .head L ∧
        ∀ i, 1 ≤ i → i < DefaultMaxLevel →
          ∃ C C', IsChainFrom sample18 i .head C ∧
            IsChainFrom sample18 (i - 1) .head C' ∧
            C.Sublist C' ∧
            List.Pairwise
              (fun a b => bytesCompare (keyOf sample18 a) (keyOf sample18 b) = .lt) C ∧
            (∀ id, id ∈ C ↔ id ∈ L ∧ i < heightOf sample18 id)) :=
  ⟨Reachable.base (1/2) rhalf 18 sample18 rfl,
    C8_level_chains (Reachable.base (1/2) rhalf 18 sample18 rfl)⟩

/-- C10: `Get` writes nothing: whenever it completes, the state it hands
back is the very state it was given — heap, sentinel array, count,
probability data and the predecessor scratch buffer included. -/
theorem C10_get_no_writes {s : SkipList} (hr : Reachable s) (k : Key) :
    ∀ q, Get s k = some q → q.1 = s := by
  intro q hq
  rw [Get] at hq
  cases hsl : searchLevels s k s.maxLevel .head with
  | none =>
    simp only [hsl, optionBind_none] at hq
    exact Option.noConfusion hq
  | some pn =>
    simp only [hsl, optionBind_some] at hq
    cases hc2 : pn.2 with
    | none =>
      simp only [hc2] at hq
      have hq' : some (s, (none : Option EId)) = some q := hq
      injection hq' with hq'
      rw [← hq']
    | some id =>
      simp only [hc2] at hq
      cases he : s.heap[id]? with
      | none =>
        simp only [he] at hq
        exact Option.noConfusion hq
      | some e =>
        simp only [he] at hq
        by_cases hgt : bytesCompare e.key k ≠ .gt
        · rw [if_pos hgt] at hq
          have hq' : some (s, some id) = some q := hq
          injection hq' with hq'
          rw [← hq']
        · rw [if_neg hgt] at hq
          have hq' : some (s, (none : Option EId)) = some q := hq
          injection hq' with hq'
          rw [← hq']

theorem C10_get_no_writes_witness :
    Reachable sample18 ∧ ∀ q, Get sample18 [0] = some q → q.1 = sample18 :=
  ⟨Reachable.base (1/2) rhalf 18 sample18 rfl,
    C10_get_no_writes (Reachable.base (1/2) rhalf 18 sample18 rfl) [0]⟩

theorem C2_new_sizes_are_18_witness :
    1 ≤ 4 ∧ 4 ≤ 64 ∧
      (∃ s, NewWithMaxLevel (1/2) rhalf 4 = some s ∧ s.maxLevel = 4 ∧
        s.headNext.length = DefaultMaxLevel ∧
        s.prevNodesCache.length = DefaultMaxLevel ∧
        s.probTable.length = DefaultMaxLevel ∧
        (4 ≠ DefaultMaxLevel → ¬ (s.headNext.length = 4 ∧
          s.prevNodesCache.length = 4 ∧ s.probTable.length = 4))) :=
  ⟨by decide, by decide, C2_new_sizes_are_18 4 (by decide) (by decide) (1/2) rhalf⟩

end FastSkipList
